import Mathlib

/-!
Verification of the subtitles-transliterator repository.

The Python functions of `src/cleanup_srt.py` and the content-sanitising part of
`save_single_transliterated_file` in `src/translate.py` are shallowly embedded
here.  Python strings are modelled as `List Char` (the scripts only ever handle
ASCII control data: digits, colons, commas, dashes and newlines; whitespace and
digit classification are modelled over the ASCII range).  Filesystem paths are
modelled by their component lists, and the one file read performed by
`replace_timestamps_with_originals` is modelled by an `Option (List Char)`
argument (`none` = the file is missing or unreadable, in which case the Python
exception handler returns the processed content unchanged).
-/

set_option maxRecDepth 200000

/-- ASCII model of Python's whitespace class (`str.strip` and the regex
class `\s`): space, tab, newline, carriage return, vertical tab, form feed. -/
def pySpace (c : Char) : Bool :=
  c.toNat = 32 || c.toNat = 9 || c.toNat = 10 || c.toNat = 13 ||
    c.toNat = 11 || c.toNat = 12

/-- ASCII decimal digit, the model of the regex class `\d` and of the
character test underlying `str.isdigit`. -/
def isDig (c : Char) : Bool :=
  48 ≤ c.toNat && c.toNat ≤ 57

/-- `s.lstrip()`: drop leading whitespace. -/
def lstrip (s : List Char) : List Char := s.dropWhile pySpace

/-- `s.rstrip()`: drop trailing whitespace. -/
def rstrip (s : List Char) : List Char := (s.reverse.dropWhile pySpace).reverse

/-- Python `s.strip()`. -/
def pyStrip (s : List Char) : List Char := rstrip (lstrip s)

/-- Python `s.isdigit()`: nonempty and all characters decimal digits. -/
def pyIsDigit (s : List Char) : Bool := !s.isEmpty && s.all isDig

/-- Python `s.split(chr(10))`: split on every newline, keeping empty pieces;
the empty string yields one empty piece, exactly as in Python. -/
def splitNL : List Char → List (List Char)
  | [] => [[]]
  | c :: cs =>
    if c = '\n' then [] :: splitNL cs
    else
      match splitNL cs with
      | [] => [[c]]
      | l :: ls => (c :: l) :: ls

/-- Python `chr(10).join(lines)`. -/
def joinNL : List (List Char) → List Char
  | [] => []
  | [l] => l
  | l :: ls => l ++ '\n' :: joinNL ls

/-- The decimal digit character of `d` for `d < 10` (and `'9'` above). -/
def digitChar (d : Nat) : Char :=
  if d = 0 then '0' else if d = 1 then '1' else if d = 2 then '2'
  else if d = 3 then '3' else if d = 4 then '4' else if d = 5 then '5'
  else if d = 6 then '6' else if d = 7 then '7' else if d = 8 then '8'
  else '9'

/-- Recursion kernel of `natDigits`; the fuel only bounds the recursion
depth (each step divides `n` by ten, so `n` steps always suffice) and keeps
the definition structurally recursive, hence computable by the kernel. -/
def natDigitsAux : Nat → Nat → List Char
  | 0, _ => []
  | fuel + 1, n =>
    if n < 10 then [digitChar n]
    else natDigitsAux fuel (n / 10) ++ [digitChar (n % 10)]

/-- Python `str(n)` for a natural number: its decimal digits. -/
def natDigits (n : Nat) : List Char := natDigitsAux (n + 1) n

/-- Shape of the twelve characters `hh:mm:ss,mmm` of one SRT time. -/
def timeShape : List Char → Bool
  | [a, b, c, d, e, f, g, h, i, j, k, m] =>
    isDig a && isDig b && c == ':' && isDig d && isDig e && f == ':' &&
      isDig g && isDig h && i == ',' && isDig j && isDig k && isDig m
  | _ => false

/-- Consume one `hh:mm:ss,mmm` time at the head of `s`, returning the rest. -/
def parseTime (s : List Char) : Option (List Char) :=
  if timeShape (s.take 12) = true then some (s.drop 12) else none

/-- Consume the greedy `\s*-->\s*` separator at the head of `s`: drop the
whitespace run, expect the three arrow characters, drop the next whitespace
run (the regex engine never needs to backtrack here because neither a dash
nor a digit is whitespace). -/
def parseArrow (s : List Char) : Option (List Char) :=
  if (s.dropWhile pySpace).take 3 = ['-', '-', '>'] then
    some (((s.dropWhile pySpace).drop 3).dropWhile pySpace)
  else none

/-- Match the interval regex (two times joined by `-->` with optional
surrounding whitespace) at the head of `s`; `some r` is the unmatched rest.
Like `re.match`, this is a prefix match: trailing characters are ignored. -/
def matchTSRest (s : List Char) : Option (List Char) :=
  (parseTime s).bind fun r1 => (parseArrow r1).bind fun r2 => parseTime r2

/-- `re.match(interval_pattern, s) is not None`. -/
def matchTS (s : List Char) : Bool := (matchTSRest s).isSome

/-- `re.findall(interval_pattern, s)`: scan left to right, collecting
non-overlapping matches; on failure advance one character, on success
continue right after the match (`matchTSRest` returns a proper suffix, so
`cs.drop (cs.length - r.length)` is exactly that suffix).  The fuel of the
auxiliary scanner only bounds the recursion depth: every step moves to a
strictly shorter list, so `s.length` steps always suffice; it keeps the
scanner structurally recursive, hence computable by the kernel. -/
def extractTSAux : Nat → List Char → List (List Char)
  | 0, _ => []
  | fuel + 1, s =>
    match s with
    | [] => []
    | c :: cs =>
      match matchTSRest (c :: cs) with
      | some r =>
          (c :: cs).take ((c :: cs).length - r.length) ::
            extractTSAux fuel (cs.drop (cs.length - r.length))
      | none => extractTSAux fuel cs

def extractTS (s : List Char) : List (List Char) := extractTSAux s.length s

/-- Python `s.replace(old, new, 1)`: replace the first occurrence of `old`
in `s` (scanning from the start) by `new`; `s` is returned unchanged when
`old` does not occur, and an empty `old` is inserted at the front. -/
def replaceFirst (old new : List Char) : List Char → List Char
  | [] => if old.isEmpty then new else []
  | c :: cs =>
    if old.isPrefixOf (c :: cs) then new ++ (c :: cs).drop old.length
    else c :: replaceFirst old new cs

/-- Python `s.replace(old, new)` for nonempty `old` (the only use in the
repository is `stem.replace(chr(95) ++ "telugu", "")`): replace every
non-overlapping occurrence, scanning left to right.  The fuel again only
bounds the recursion depth of the structural scanner. -/
def pyReplaceAllAux (old new : List Char) : Nat → List Char → List Char
  | 0, _ => []
  | fuel + 1, s =>
    match s with
    | [] => []
    | c :: cs =>
      if old ≠ [] ∧ old.isPrefixOf (c :: cs) then
        new ++ pyReplaceAllAux old new fuel (cs.drop (old.length - 1))
      else c :: pyReplaceAllAux old new fuel cs

def pyReplaceAll (old new : List Char) (s : List Char) : List Char :=
  pyReplaceAllAux old new s.length s

/-- Python `sub in s` (substring test). -/
def pyIn (sub : List Char) : List Char → Bool
  | [] => sub.isEmpty
  | c :: cs => sub.isPrefixOf (c :: cs) || pyIn sub cs

/-!  ## The loop bodies of `cleanup_srt.py`

Both `clean_srt_content` and `fix_srt_numbering` walk the list of lines with
an index `i` and an accumulator list; the accumulator only influences the
control flow through its emptiness (the guard `not line and not
cleaned_lines`), so the loops are embedded as recursions carrying a
`started : Bool` flag that is `true` exactly when at least one line has been
retained.  All branch tests mirror the Python code: lines are stripped, a
line is a number when `line.isdigit()`, and the one-line lookahead tests the
stripped next line. -/

/-- Loop of `clean_srt_content` (src/cleanup_srt.py lines 18-50). -/
def cleanLoop (st : Bool) : List (List Char) → List (List Char)
  | [] => []
  | l :: rest =>
    if pyStrip l = [] ∧ st = false then cleanLoop st rest
    else if pyIsDigit (pyStrip l) = true then
      match rest with
      | [] => cleanLoop st rest
      | l2 :: _ =>
        if pyIsDigit (pyStrip l2) = true then cleanLoop st rest
        else if matchTS (pyStrip l2) = true then pyStrip l :: cleanLoop true rest
        else cleanLoop st rest
    else pyStrip l :: cleanLoop true rest

/-- `clean_srt_content` (src/cleanup_srt.py lines 12-53). -/
def clean_srt_content (s : List Char) : List Char :=
  joinNL (cleanLoop false (splitNL (pyStrip s)))

/-- Loop of `fix_srt_numbering` (src/cleanup_srt.py lines 61-92); `n` is the
running `subtitle_number`. -/
def fixLoop (n : Nat) (st : Bool) : List (List Char) → List (List Char)
  | [] => []
  | l :: rest =>
    if pyStrip l = [] ∧ st = false then fixLoop n st rest
    else if pyIsDigit (pyStrip l) = true then
      match rest with
      | [] => fixLoop n st rest
      | l2 :: _ =>
        if matchTS (pyStrip l2) = true then natDigits n :: fixLoop (n + 1) true rest
        else fixLoop n st rest
    else pyStrip l :: fixLoop n true rest

/-- `fix_srt_numbering` (src/cleanup_srt.py lines 55-95). -/
def fix_srt_numbering (s : List Char) : List Char :=
  joinNL (fixLoop 1 false (splitNL (pyStrip s)))

/-- `extract_timestamps_from_content` (src/cleanup_srt.py lines 97-103). -/
def extract_timestamps_from_content (s : List Char) : List (List Char) :=
  extractTS s

/-- `Path(name).stem` for a path component: the component without its final
suffix; a dot in first position does not start a suffix. -/
def pathStem (name : List Char) : List Char :=
  match name.reverse.dropWhile (fun c => c != '.') with
  | [] => name
  | _ :: rest => if rest.isEmpty then name else rest.reverse

def teluguChars : List Char := "_telugu".toList

def srtExt : List Char := ".srt".toList

/-- `find_source_file` (src/cleanup_srt.py lines 105-121) over a path given
by its component list: `series_name` is the parent directory's name, the
original filename is the stem with every occurrence of the telugu marker
removed plus `.srt`, and the lookup directory is `parents[2]` (three
components up from the file). -/
def find_source_file (comps : List (List Char)) : List (List Char) :=
  let series := comps.dropLast.getLastD []
  let fname := comps.getLastD []
  let orig := pyReplaceAll teluguChars [] (pathStem fname) ++ srtExt
  comps.dropLast.dropLast.dropLast ++ [series, orig]

/-- `replace_timestamps_with_originals` (src/cleanup_srt.py lines 123-156).
`sourceRead` is the attempted read of the source file; `none` (missing or
unreadable file) lands in the exception handler, which returns the processed
content unchanged. -/
def replace_timestamps_with_originals (processed : List Char)
    (sourceRead : Option (List Char)) : List Char :=
  match sourceRead with
  | none => processed
  | some src =>
    let sourceTs := extractTS src
    if sourceTs.isEmpty then processed
    else
      let processedTs := extractTS processed
      if sourceTs.length ≠ processedTs.length then processed
      else (sourceTs.zip processedTs).foldl
        (fun acc pr => replaceFirst pr.2 pr.1 acc) processed

def sepChars : List Char := "===".toList

/-- Loop of the content sanitiser in `save_single_transliterated_file`
(src/translate.py lines 265-285); `found` is `subtitle_found`, which the
Python code sets only inside the insertion branch. -/
def ssLoop (series : List Char) (found : Bool) : List (List Char) → List (List Char)
  | [] => []
  | l :: rest =>
    if pyStrip l ≠ [] ∧ pyIsDigit (pyStrip l) = true then
      if found = false ∧ pyStrip l ≠ ['1'] then
        ['1'] :: pyStrip l :: ssLoop series true rest
      else pyStrip l :: ssLoop series found rest
    else if pyStrip l ≠ [] ∧ ':' ∈ pyStrip l ∧ pyIn "-->".toList (pyStrip l) = true then
      pyStrip l :: ssLoop series found rest
    else if pyStrip l ≠ [] ∧ sepChars.isPrefixOf (pyStrip l) = false ∧
        series.isPrefixOf (pyStrip l) = false then
      pyStrip l :: ssLoop series found rest
    else ssLoop series found rest

/-- The content transformation of `save_single_transliterated_file`
(src/translate.py lines 261-300): the cleaned lines joined by newlines,
i.e. the `final_content` that the function hands to `save_transliterated_srt`. -/
def save_single_transliterated_file (series content : List Char) : List Char :=
  joinNL (ssLoop series false (splitNL (pyStrip content)))

/-! ## Specification-level definitions used by the claims -/

/-- A position is processed as a cue number by `fix_srt_numbering` exactly
when the stripped line is numeric and the stripped following line matches the
interval pattern. -/
def cueHere (l : List Char) (rest : List (List Char)) : Bool :=
  pyIsDigit (pyStrip l) &&
    (match rest with
     | [] => false
     | l2 :: _ => matchTS (pyStrip l2))

/-- Number of positions processed as cue numbers in a list of lines. -/
def countCues : List (List Char) → Nat
  | [] => 0
  | l :: rest => (if cueHere l rest = true then 1 else 0) + countCues rest

/-- Remove the trailing run of empty lines from a list of lines. -/
def dropTrailBlank (M : List (List Char)) : List (List Char) :=
  (M.reverse.dropWhile List.isEmpty).reverse

/-- The lines of a list of SRT cue blocks; a block is a cue-number line, an
interval line, and a list of text lines. -/
def flattenBlocks : List (List Char × List Char × List (List Char)) →
    List (List Char)
  | [] => []
  | (num, ts, xs) :: bs => num :: ts :: (xs ++ flattenBlocks bs)

/-- Blocks as `fix_srt_numbering` emits them from cue number `k` on: the
number line replaced by the running counter, every line stripped. -/
def renumber (k : Nat) : List (List Char × List Char × List (List Char)) →
    List (List Char × List Char × List (List Char))
  | [] => []
  | (_, ts, xs) :: bs =>
    (natDigits k, pyStrip ts, xs.map pyStrip) :: renumber (k + 1) bs

/-- A well-formed block: numeric first line, interval second line, at least
one text line, and no text line that is numeric or starts with the interval
pattern once stripped. -/
def goodBlock (b : List Char × List Char × List (List Char)) : Bool :=
  pyIsDigit (pyStrip b.1) && matchTS (pyStrip b.2.1) && !b.2.2.isEmpty &&
    b.2.2.all (fun x => !pyIsDigit (pyStrip x) && !matchTS (pyStrip x))

/-- `noEarly p A B = true` when no occurrence of `p` starts before position
`A.length` in `A ++ p ++ B`, so the first occurrence of `p` is the displayed
one. -/
def noEarly (p A B : List Char) : Bool :=
  (List.range A.length).all fun k => !(p.isPrefixOf ((A ++ p ++ B).drop k))

/-- Text interleaved with the processed intervals of a cue list; each cue is
(processed interval, source interval, following separator text). -/
def buildP : List Char → List (List Char × List Char × List Char) → List Char
  | t0, [] => t0
  | t0, c :: rest => t0 ++ c.1 ++ buildP c.2.2 rest

/-- The same text with every interval replaced by its source interval. -/
def buildS : List Char → List (List Char × List Char × List Char) → List Char
  | t0, [] => t0
  | t0, c :: rest => t0 ++ c.2.1 ++ buildS c.2.2 rest

/-- Every processed interval's first occurrence in the partially replaced
text is at its own position. -/
def goodCues : List Char → List (List Char × List Char × List Char) → Bool
  | _, [] => true
  | A, c :: rest =>
    noEarly c.1 A (buildP c.2.2 rest) && goodCues (A ++ c.2.1 ++ c.2.2) rest

/-! ## Basic facts about stripping -/

theorem lstrip_sublist (s : List Char) : (lstrip s).Sublist s :=
  (List.dropWhile_suffix pySpace).sublist

theorem rstrip_prefix_self (s : List Char) : rstrip s <+: s := by
  obtain ⟨t, ht⟩ := List.dropWhile_suffix (l := s.reverse) pySpace
  refine ⟨t.reverse, ?_⟩
  have := congrArg List.reverse ht
  simpa [rstrip] using this

theorem rstrip_sublist (s : List Char) : (rstrip s).Sublist s :=
  (rstrip_prefix_self s).sublist

theorem pyStrip_sublist (s : List Char) : (pyStrip s).Sublist s :=
  (rstrip_sublist (lstrip s)).trans (lstrip_sublist s)

theorem length_lstrip_le (s : List Char) : (lstrip s).length ≤ s.length :=
  (lstrip_sublist s).length_le

theorem length_rstrip_le (s : List Char) : (rstrip s).length ≤ s.length :=
  (rstrip_sublist s).length_le

theorem length_pyStrip_le (s : List Char) : (pyStrip s).length ≤ s.length :=
  (pyStrip_sublist s).length_le

theorem lstrip_eq_self_of_strip (s : List Char) (h : pyStrip s = s) :
    lstrip s = s := by
  have h1 : (pyStrip s).length ≤ (lstrip s).length := length_rstrip_le (lstrip s)
  have h2 : (lstrip s).length ≤ s.length := length_lstrip_le s
  have hlen : (lstrip s).length = s.length := by rw [h] at h1; omega
  exact (List.dropWhile_suffix pySpace).eq_of_length hlen

theorem rstrip_eq_self_of_strip (s : List Char) (h : pyStrip s = s) :
    rstrip s = s := by
  have := lstrip_eq_self_of_strip s h
  calc rstrip s = rstrip (lstrip s) := by rw [this]
    _ = s := h

theorem lstrip_head_not_space {s : List Char} {c : Char} {t : List Char}
    (h : lstrip s = c :: t) : pySpace c = false := by
  have hne : s.dropWhile pySpace ≠ [] := by
    intro hx; rw [lstrip, hx] at h; exact absurd h (by simp)
  have := List.head_dropWhile_not pySpace s hne
  rw [lstrip] at h
  simpa [h] using this

theorem pyStrip_head_not_space {s : List Char} {c : Char} {t : List Char}
    (h : pyStrip s = c :: t) : pySpace c = false := by
  obtain ⟨r, hr⟩ := rstrip_prefix_self (lstrip s)
  rw [pyStrip] at h
  rw [h] at hr
  exact lstrip_head_not_space (s := s) (t := t ++ r) (by simpa using hr.symm)

theorem rstrip_last_not_space {s : List Char} {c : Char}
    (h : (rstrip s).getLast? = some c) : pySpace c = false := by
  rw [rstrip, List.getLast?_reverse] at h
  have hne : s.reverse.dropWhile pySpace ≠ [] := by
    intro hx; rw [hx] at h; exact absurd h (by simp)
  have hh := List.head_dropWhile_not pySpace s.reverse hne
  rw [List.head?_eq_head hne] at h
  rw [Option.some_inj] at h
  rwa [h] at hh

theorem pyStrip_last_not_space {s : List Char} {c : Char}
    (h : (pyStrip s).getLast? = some c) : pySpace c = false :=
  rstrip_last_not_space (s := lstrip s) h

theorem lstrip_eq_self_of_head {s : List Char}
    (h : ∀ c t, s = c :: t → pySpace c = false) : lstrip s = s := by
  cases s with
  | nil => rfl
  | cons c t => rw [lstrip, List.dropWhile_cons, h c t rfl]; simp

theorem rstrip_eq_self_of_last {s : List Char}
    (h : ∀ c, s.getLast? = some c → pySpace c = false) : rstrip s = s := by
  cases hs : s.reverse with
  | nil =>
    have : s = [] := by simpa using congrArg List.reverse hs
    simp [this, rstrip]
  | cons c t =>
    have hc : s.getLast? = some c := by
      rw [← List.head?_reverse, hs]; rfl
    have hd : s.reverse.dropWhile pySpace = s.reverse := by
      rw [hs, List.dropWhile_cons, h c hc]; simp
    rw [rstrip, hd, List.reverse_reverse]

theorem pyStrip_idem (s : List Char) : pyStrip (pyStrip s) = pyStrip s := by
  have h1 : lstrip (pyStrip s) = pyStrip s :=
    lstrip_eq_self_of_head (fun c t hct => pyStrip_head_not_space hct)
  have h2 : rstrip (pyStrip s) = pyStrip s :=
    rstrip_eq_self_of_last (fun c hc => pyStrip_last_not_space hc)
  calc pyStrip (pyStrip s) = rstrip (pyStrip s) := by rw [pyStrip, h1]
    _ = pyStrip s := h2

theorem pyStrip_eq_self_of_no_space {s : List Char}
    (h : ∀ c ∈ s, pySpace c = false) : pyStrip s = s := by
  have h1 : lstrip s = s :=
    lstrip_eq_self_of_head (fun c t hct => h c (by rw [hct]; simp))
  have h2 : rstrip s = s :=
    rstrip_eq_self_of_last (fun c hc => h c (List.mem_of_mem_getLast? hc))
  rw [pyStrip, h1, h2]

theorem pyStrip_nil : pyStrip [] = [] := rfl

theorem not_newline_pyStrip {s : List Char} (h : '\n' ∉ s) : '\n' ∉ pyStrip s :=
  fun hx => h ((pyStrip_sublist s).mem hx)

/-! ## splitNL and joinNL -/

theorem splitNL_nil : splitNL [] = [[]] := rfl

theorem splitNL_cons_nl (cs : List Char) :
    splitNL ('\n' :: cs) = [] :: splitNL cs := by
  rw [splitNL]; simp

theorem splitNL_cons_of (c : Char) (cs l : List Char) (ls : List (List Char))
    (hc : c ≠ '\n') (h : splitNL cs = l :: ls) :
    splitNL (c :: cs) = (c :: l) :: ls := by
  rw [splitNL, if_neg hc, h]

theorem splitNL_ne_nil (s : List Char) : splitNL s ≠ [] := by
  cases s with
  | nil => simp [splitNL]
  | cons c cs =>
    rw [splitNL]
    split
    · simp
    · cases h : splitNL cs <;> simp

theorem splitNL_single {a : List Char} (h : '\n' ∉ a) : splitNL a = [a] := by
  induction a with
  | nil => rfl
  | cons c cs ih =>
    have hc : c ≠ '\n' := fun e => h (by simp [e])
    have ihh := ih (fun hx => h (List.mem_cons_of_mem _ hx))
    rw [splitNL_cons_of c cs cs [] hc ihh]

theorem splitNL_append {a s : List Char} (h : '\n' ∉ a) :
    splitNL (a ++ '\n' :: s) = a :: splitNL s := by
  induction a with
  | nil => simpa using splitNL_cons_nl s
  | cons c cs ih =>
    have hc : c ≠ '\n' := fun e => h (by simp [e])
    have ihh := ih (fun hx => h (List.mem_cons_of_mem _ hx))
    rw [List.cons_append, splitNL_cons_of c _ cs (splitNL s) hc ihh]

theorem joinNL_cons {p : List Char} {tl : List (List Char)} (ht : tl ≠ []) :
    joinNL (p :: tl) = p ++ '\n' :: joinNL tl := by
  cases tl with
  | nil => exact absurd rfl ht
  | cons q M => rfl

theorem splitNL_joinNL {M : List (List Char)} (hM : ∀ p ∈ M, '\n' ∉ p)
    (h : M ≠ []) : splitNL (joinNL M) = M := by
  induction M with
  | nil => exact absurd rfl h
  | cons p tl ih =>
    cases tl with
    | nil => exact splitNL_single (hM p (by simp))
    | cons q M' =>
      rw [joinNL_cons (by simp), splitNL_append (hM p (by simp)),
        ih (fun x hx => hM x (by simp [hx])) (by simp)]

theorem length_splitNL (s : List Char) :
    (splitNL s).length = s.count '\n' + 1 := by
  induction s with
  | nil => rfl
  | cons c cs ih =>
    by_cases hc : c = '\n'
    · subst hc
      rw [splitNL_cons_nl]
      simp [List.count_cons, ih]
    · cases h : splitNL cs with
      | nil => exact absurd h (splitNL_ne_nil cs)
      | cons l ls =>
        rw [splitNL_cons_of c cs l ls hc h]
        rw [h] at ih
        simp only [List.length_cons] at ih ⊢
        simp [List.count_cons, hc, ih]

theorem mem_splitNL_no_newline {s l : List Char} (hl : l ∈ splitNL s) :
    '\n' ∉ l := by
  induction s generalizing l with
  | nil =>
    rw [splitNL_nil] at hl
    simp at hl
    simp [hl]
  | cons c cs ih =>
    by_cases hc : c = '\n'
    · subst hc
      rw [splitNL_cons_nl] at hl
      rcases List.mem_cons.1 hl with rfl | hl2
      · simp
      · exact ih hl2
    · cases h : splitNL cs with
      | nil => exact absurd h (splitNL_ne_nil cs)
      | cons p ps =>
        rw [splitNL_cons_of c cs p ps hc h] at hl
        rcases List.mem_cons.1 hl with rfl | hl2
        · intro hx
          rcases List.mem_cons.1 hx with e | hx2
          · exact hc e.symm
          · exact ih (h ▸ List.mem_cons_self p ps) hx2
        · exact ih (by rw [h]; exact List.mem_cons_of_mem _ hl2)

theorem joinNL_eq_nil {M : List (List Char)} (h : joinNL M = []) :
    M = [] ∨ M = [[]] := by
  cases M with
  | nil => exact Or.inl rfl
  | cons p tl =>
    cases tl with
    | nil =>
      right
      have : p = [] := h
      rw [this]
    | cons q M' =>
      rw [joinNL_cons (by simp)] at h
      simp at h

/-! ## Decimal digit strings -/

theorem isDig_digitChar (d : Nat) : isDig (digitChar d) = true := by
  unfold digitChar
  repeat' split
  all_goals decide

theorem all_isDig_natDigitsAux (fuel : Nat) :
    ∀ n, ∀ c ∈ natDigitsAux fuel n, isDig c = true := by
  induction fuel with
  | zero =>
    intro n c hc
    simp [natDigitsAux] at hc
  | succ fuel ih =>
    intro n c hc
    rw [natDigitsAux] at hc
    split at hc
    · simp at hc
      rw [hc]
      exact isDig_digitChar n
    · rw [List.mem_append] at hc
      rcases hc with hc | hc
      · exact ih (n / 10) c hc
      · simp at hc
        rw [hc]
        exact isDig_digitChar (n % 10)

theorem all_isDig_natDigits (n : Nat) : ∀ c ∈ natDigits n, isDig c = true :=
  all_isDig_natDigitsAux (n + 1) n

theorem natDigits_ne_nil (n : Nat) : natDigits n ≠ [] := by
  rw [natDigits, natDigitsAux]
  split <;> simp

theorem pyIsDigit_natDigits (n : Nat) : pyIsDigit (natDigits n) = true := by
  rw [pyIsDigit, Bool.and_eq_true, List.all_eq_true]
  refine ⟨?_, all_isDig_natDigits n⟩
  simp [List.isEmpty_iff, natDigits_ne_nil n]

theorem isDig_not_space {c : Char} (h : isDig c = true) : pySpace c = false := by
  simp only [isDig, Bool.and_eq_true, decide_eq_true_eq] at h
  simp only [pySpace, Bool.or_eq_false_iff, decide_eq_false_iff_not]
  omega

theorem pyStrip_natDigits (n : Nat) : pyStrip (natDigits n) = natDigits n :=
  pyStrip_eq_self_of_no_space
    (fun c hc => isDig_not_space (all_isDig_natDigits n c hc))

theorem newline_not_mem_natDigits (n : Nat) : '\n' ∉ natDigits n := by
  intro hx
  have h := all_isDig_natDigits n _ hx
  exact absurd h (by decide)

/-! ## Facts about the interval pattern -/

theorem timeShape_mem_colon {t : List Char} (h : timeShape t = true) :
    ':' ∈ t := by
  unfold timeShape at h
  split at h
  · rename_i a b c d e f g hh i j k m
    simp only [Bool.and_eq_true, beq_iff_eq] at h
    rcases h with ⟨⟨⟨⟨⟨⟨⟨⟨⟨⟨⟨h1, h2⟩, h3⟩, h4⟩, h5⟩, h6⟩, h7⟩, h8⟩, h9⟩, h10⟩, h11⟩, h12⟩
    rw [← h3]
    simp
  · exact absurd h (by simp)

theorem matchTS_colon_mem {s : List Char} (h : matchTS s = true) : ':' ∈ s := by
  rw [matchTS] at h
  unfold matchTSRest at h
  cases hp : parseTime s with
  | none => rw [hp] at h; simp at h
  | some r1 =>
    unfold parseTime at hp
    split at hp
    · rename_i hts
      exact List.take_subset 12 s (timeShape_mem_colon hts)
    · exact absurd hp (by simp)

theorem pyIsDigit_matchTS {s : List Char} (h : pyIsDigit s = true) :
    matchTS s = false := by
  cases hm : matchTS s
  · rfl
  · have hc := matchTS_colon_mem hm
    rw [pyIsDigit, Bool.and_eq_true, List.all_eq_true] at h
    exact absurd (h.2 ':' hc) (by decide)

theorem matchTS_not_digit {s : List Char} (h : matchTS s = true) :
    pyIsDigit s = false := by
  cases hd : pyIsDigit s
  · rfl
  · rw [pyIsDigit_matchTS hd] at h
    exact Bool.noConfusion h

theorem matchTS_natDigits (n : Nat) : matchTS (natDigits n) = false :=
  pyIsDigit_matchTS (pyIsDigit_natDigits n)

theorem pyIsDigit_pyStrip_self {s : List Char} (h : pyIsDigit s = true) :
    pyStrip s = s := by
  rw [pyIsDigit, Bool.and_eq_true, List.all_eq_true] at h
  exact pyStrip_eq_self_of_no_space (fun c hc => isDig_not_space (h.2 c hc))

/-! ## Step lemmas for the two repair loops -/

theorem pyIsDigit_nil : pyIsDigit [] = false := rfl

theorem cleanLoop_cons (st : Bool) (l : List Char) (rest : List (List Char)) :
    cleanLoop st (l :: rest) =
      if pyStrip l = [] ∧ st = false then cleanLoop st rest
      else if pyIsDigit (pyStrip l) = true then
        match rest with
        | [] => cleanLoop st rest
        | l2 :: _ =>
          if pyIsDigit (pyStrip l2) = true then cleanLoop st rest
          else if matchTS (pyStrip l2) = true then pyStrip l :: cleanLoop true rest
          else cleanLoop st rest
      else pyStrip l :: cleanLoop true rest := by
  cases rest <;> rfl

theorem fixLoop_cons (n : Nat) (st : Bool) (l : List Char)
    (rest : List (List Char)) :
    fixLoop n st (l :: rest) =
      if pyStrip l = [] ∧ st = false then fixLoop n st rest
      else if pyIsDigit (pyStrip l) = true then
        match rest with
        | [] => fixLoop n st rest
        | l2 :: _ =>
          if matchTS (pyStrip l2) = true then natDigits n :: fixLoop (n + 1) true rest
          else fixLoop n st rest
      else pyStrip l :: fixLoop n true rest := by
  cases rest <;> rfl

theorem cleanLoop_blank {l : List Char} (rest : List (List Char))
    (h : pyStrip l = []) :
    cleanLoop false (l :: rest) = cleanLoop false rest := by
  rw [cleanLoop_cons, if_pos ⟨h, rfl⟩]

theorem fixLoop_blank (n : Nat) {l : List Char} (rest : List (List Char))
    (h : pyStrip l = []) :
    fixLoop n false (l :: rest) = fixLoop n false rest := by
  rw [fixLoop_cons, if_pos ⟨h, rfl⟩]

theorem cleanLoop_pass (st : Bool) {l : List Char} (rest : List (List Char))
    (hd : pyIsDigit (pyStrip l) = false) (hb : pyStrip l = [] → st = true) :
    cleanLoop st (l :: rest) = pyStrip l :: cleanLoop true rest := by
  have hA : ¬(pyStrip l = [] ∧ st = false) := by
    rintro ⟨h1, h2⟩
    rw [hb h1] at h2
    exact Bool.noConfusion h2
  rw [cleanLoop_cons, if_neg hA, if_neg (by simp [hd])]

theorem fixLoop_pass (n : Nat) (st : Bool) {l : List Char}
    (rest : List (List Char))
    (hd : pyIsDigit (pyStrip l) = false) (hb : pyStrip l = [] → st = true) :
    fixLoop n st (l :: rest) = pyStrip l :: fixLoop n true rest := by
  have hA : ¬(pyStrip l = [] ∧ st = false) := by
    rintro ⟨h1, h2⟩
    rw [hb h1] at h2
    exact Bool.noConfusion h2
  rw [fixLoop_cons, if_neg hA, if_neg (by simp [hd])]

theorem strip_digit_not_blank {l : List Char} (hd : pyIsDigit (pyStrip l) = true)
    {st : Bool} : ¬(pyStrip l = [] ∧ st = false) := by
  rintro ⟨h1, _⟩
  rw [h1] at hd
  exact absurd hd (by decide)

theorem cleanLoop_cue (st : Bool) {l l2 : List Char} (rest : List (List Char))
    (hd : pyIsDigit (pyStrip l) = true) (hm : matchTS (pyStrip l2) = true) :
    cleanLoop st (l :: l2 :: rest) = pyStrip l :: cleanLoop true (l2 :: rest) := by
  rw [cleanLoop, if_neg (strip_digit_not_blank hd), if_pos hd]
  rw [if_neg (by simp [matchTS_not_digit hm]), if_pos hm]

theorem cleanLoop_dup (st : Bool) {l l2 : List Char} (rest : List (List Char))
    (hd : pyIsDigit (pyStrip l) = true) (hd2 : pyIsDigit (pyStrip l2) = true) :
    cleanLoop st (l :: l2 :: rest) = cleanLoop st (l2 :: rest) := by
  rw [cleanLoop, if_neg (strip_digit_not_blank hd), if_pos hd, if_pos hd2]

theorem cleanLoop_digit_skip (st : Bool) {l l2 : List Char}
    (rest : List (List Char))
    (hd : pyIsDigit (pyStrip l) = true) (hd2 : pyIsDigit (pyStrip l2) = false)
    (hm : matchTS (pyStrip l2) = false) :
    cleanLoop st (l :: l2 :: rest) = cleanLoop st (l2 :: rest) := by
  rw [cleanLoop, if_neg (strip_digit_not_blank hd), if_pos hd]
  rw [if_neg (by simp [hd2]), if_neg (by simp [hm])]

theorem cleanLoop_digit_last (st : Bool) {l : List Char}
    (hd : pyIsDigit (pyStrip l) = true) : cleanLoop st [l] = [] := by
  rw [cleanLoop, if_neg (strip_digit_not_blank hd), if_pos hd]
  rfl

theorem fixLoop_cue (n : Nat) (st : Bool) {l l2 : List Char}
    (rest : List (List Char))
    (hd : pyIsDigit (pyStrip l) = true) (hm : matchTS (pyStrip l2) = true) :
    fixLoop n st (l :: l2 :: rest) =
      natDigits n :: fixLoop (n + 1) true (l2 :: rest) := by
  rw [fixLoop, if_neg (strip_digit_not_blank hd), if_pos hd, if_pos hm]

theorem fixLoop_digit_skip (n : Nat) (st : Bool) {l l2 : List Char}
    (rest : List (List Char))
    (hd : pyIsDigit (pyStrip l) = true) (hm : matchTS (pyStrip l2) = false) :
    fixLoop n st (l :: l2 :: rest) = fixLoop n st (l2 :: rest) := by
  rw [fixLoop, if_neg (strip_digit_not_blank hd), if_pos hd, if_neg (by simp [hm])]

theorem fixLoop_digit_last (n : Nat) (st : Bool) {l : List Char}
    (hd : pyIsDigit (pyStrip l) = true) : fixLoop n st [l] = [] := by
  rw [fixLoop, if_neg (strip_digit_not_blank hd), if_pos hd]
  rfl

theorem pyIsDigit_ne_nil {s : List Char} (h : pyIsDigit s = true) : s ≠ [] := by
  rintro rfl
  exact absurd h (by decide)

/-- Case split mirroring the branch structure of one `cleanLoop` step. -/
theorem cleanLoop_step_cases (st : Bool) (l : List Char)
    (rest : List (List Char)) (motive : Prop)
    (hblank : pyStrip l = [] → st = false →
      cleanLoop st (l :: rest) = cleanLoop st rest → motive)
    (hlast : pyIsDigit (pyStrip l) = true → rest = [] →
      cleanLoop st (l :: rest) = [] → motive)
    (hdup : ∀ l2 rest', rest = l2 :: rest' → pyIsDigit (pyStrip l) = true →
      pyIsDigit (pyStrip l2) = true →
      cleanLoop st (l :: rest) = cleanLoop st rest → motive)
    (hcue : ∀ l2 rest', rest = l2 :: rest' → pyIsDigit (pyStrip l) = true →
      pyIsDigit (pyStrip l2) = false → matchTS (pyStrip l2) = true →
      cleanLoop st (l :: rest) = pyStrip l :: cleanLoop true rest → motive)
    (hskip : ∀ l2 rest', rest = l2 :: rest' → pyIsDigit (pyStrip l) = true →
      pyIsDigit (pyStrip l2) = false → matchTS (pyStrip l2) = false →
      cleanLoop st (l :: rest) = cleanLoop st rest → motive)
    (hpass : pyIsDigit (pyStrip l) = false → (pyStrip l = [] → st = true) →
      cleanLoop st (l :: rest) = pyStrip l :: cleanLoop true rest → motive) :
    motive := by
  by_cases hb : pyStrip l = [] ∧ st = false
  · obtain ⟨h1, rfl⟩ := hb
    exact hblank h1 rfl (cleanLoop_blank rest h1)
  · by_cases hd : pyIsDigit (pyStrip l) = true
    · cases rest with
      | nil => exact hlast hd rfl (cleanLoop_digit_last st hd)
      | cons l2 rest' =>
        by_cases h2 : pyIsDigit (pyStrip l2) = true
        · exact hdup l2 rest' rfl hd h2 (cleanLoop_dup st rest' hd h2)
        · have h2f : pyIsDigit (pyStrip l2) = false := by
            cases hx : pyIsDigit (pyStrip l2)
            · rfl
            · exact absurd hx h2
          by_cases h3 : matchTS (pyStrip l2) = true
          · exact hcue l2 rest' rfl hd h2f h3 (cleanLoop_cue st rest' hd h3)
          · have h3f : matchTS (pyStrip l2) = false := by
              cases hx : matchTS (pyStrip l2)
              · rfl
              · exact absurd hx h3
            exact hskip l2 rest' rfl hd h2f h3f
              (cleanLoop_digit_skip st rest' hd h2f h3f)
    · have hdf : pyIsDigit (pyStrip l) = false := by
        cases hx : pyIsDigit (pyStrip l)
        · rfl
        · exact absurd hx hd
      have hbs : pyStrip l = [] → st = true := by
        intro h1
        cases hst : st
        · exact absurd ⟨h1, hst⟩ hb
        · rfl
      exact hpass hdf hbs (cleanLoop_pass st rest hdf hbs)

/-- Case split mirroring the branch structure of one `fixLoop` step. -/
theorem fixLoop_step_cases (n : Nat) (st : Bool) (l : List Char)
    (rest : List (List Char)) (motive : Prop)
    (hblank : pyStrip l = [] → st = false →
      fixLoop n st (l :: rest) = fixLoop n st rest → motive)
    (hlast : pyIsDigit (pyStrip l) = true → rest = [] →
      fixLoop n st (l :: rest) = [] → motive)
    (hcue : ∀ l2 rest', rest = l2 :: rest' → pyIsDigit (pyStrip l) = true →
      matchTS (pyStrip l2) = true →
      fixLoop n st (l :: rest) = natDigits n :: fixLoop (n + 1) true rest →
      motive)
    (hskip : ∀ l2 rest', rest = l2 :: rest' → pyIsDigit (pyStrip l) = true →
      matchTS (pyStrip l2) = false →
      fixLoop n st (l :: rest) = fixLoop n st rest → motive)
    (hpass : pyIsDigit (pyStrip l) = false → (pyStrip l = [] → st = true) →
      fixLoop n st (l :: rest) = pyStrip l :: fixLoop n true rest → motive) :
    motive := by
  by_cases hb : pyStrip l = [] ∧ st = false
  · obtain ⟨h1, rfl⟩ := hb
    exact hblank h1 rfl (fixLoop_blank n rest h1)
  · by_cases hd : pyIsDigit (pyStrip l) = true
    · cases rest with
      | nil => exact hlast hd rfl (fixLoop_digit_last n st hd)
      | cons l2 rest' =>
        by_cases h3 : matchTS (pyStrip l2) = true
        · exact hcue l2 rest' rfl hd h3 (fixLoop_cue n st rest' hd h3)
        · have h3f : matchTS (pyStrip l2) = false := by
            cases hx : matchTS (pyStrip l2)
            · rfl
            · exact absurd hx h3
          exact hskip l2 rest' rfl hd h3f (fixLoop_digit_skip n st rest' hd h3f)
    · have hdf : pyIsDigit (pyStrip l) = false := by
        cases hx : pyIsDigit (pyStrip l)
        · rfl
        · exact absurd hx hd
      have hbs : pyStrip l = [] → st = true := by
        intro h1
        cases hst : st
        · exact absurd ⟨h1, hst⟩ hb
        · rfl
      exact hpass hdf hbs (fixLoop_pass n st rest hdf hbs)

/-! ## Invariants of the loop outputs -/

theorem cleanLoop_mem {L : List (List Char)} :
    ∀ st p, p ∈ cleanLoop st L → ∃ l ∈ L, p = pyStrip l := by
  induction L with
  | nil =>
    intro st p hp
    simp [cleanLoop] at hp
  | cons l rest ih =>
    intro st p hp
    have lift : (∃ l' ∈ rest, p = pyStrip l') → ∃ l' ∈ l :: rest, p = pyStrip l' := by
      rintro ⟨l', hl', he⟩
      exact ⟨l', by simp [hl'], he⟩
    refine cleanLoop_step_cases st l rest _ ?_ ?_ ?_ ?_ ?_ ?_
    · intro h1 h2 heq
      rw [heq] at hp
      exact lift (ih st p hp)
    · intro hd hrest heq
      rw [heq] at hp
      simp at hp
    · intro l2 rest' hr hd h2 heq
      rw [heq] at hp
      exact lift (ih st p hp)
    · intro l2 rest' hr hd h2 h3 heq
      rw [heq] at hp
      rcases List.mem_cons.1 hp with rfl | hp2
      · exact ⟨l, by simp, rfl⟩
      · exact lift (ih true p hp2)
    · intro l2 rest' hr hd h2 h3 heq
      rw [heq] at hp
      exact lift (ih st p hp)
    · intro hd hbs heq
      rw [heq] at hp
      rcases List.mem_cons.1 hp with rfl | hp2
      · exact ⟨l, by simp, rfl⟩
      · exact lift (ih true p hp2)

theorem fixLoop_mem {L : List (List Char)} :
    ∀ n st p, p ∈ fixLoop n st L →
      (∃ l ∈ L, p = pyStrip l) ∨ ∃ k : Nat, p = natDigits k := by
  induction L with
  | nil =>
    intro n st p hp
    simp [fixLoop] at hp
  | cons l rest ih =>
    intro n st p hp
    have lift : ((∃ l' ∈ rest, p = pyStrip l') ∨ ∃ k : Nat, p = natDigits k) →
        (∃ l' ∈ l :: rest, p = pyStrip l') ∨ ∃ k : Nat, p = natDigits k := by
      rintro (⟨l', hl', he⟩ | hk)
      · exact Or.inl ⟨l', by simp [hl'], he⟩
      · exact Or.inr hk
    refine fixLoop_step_cases n st l rest _ ?_ ?_ ?_ ?_ ?_
    · intro h1 h2 heq
      rw [heq] at hp
      exact lift (ih n st p hp)
    · intro hd hrest heq
      rw [heq] at hp
      simp at hp
    · intro l2 rest' hr hd h3 heq
      rw [heq] at hp
      rcases List.mem_cons.1 hp with rfl | hp2
      · exact Or.inr ⟨n, rfl⟩
      · exact lift (ih (n + 1) true p hp2)
    · intro l2 rest' hr hd h3 heq
      rw [heq] at hp
      exact lift (ih n st p hp)
    · intro hd hbs heq
      rw [heq] at hp
      rcases List.mem_cons.1 hp with rfl | hp2
      · exact Or.inl ⟨l, by simp, rfl⟩
      · exact lift (ih n true p hp2)

theorem cleanLoop_piece_strip {L : List (List Char)} {st : Bool}
    {p : List Char} (hp : p ∈ cleanLoop st L) : pyStrip p = p := by
  obtain ⟨l, -, rfl⟩ := cleanLoop_mem st p hp
  exact pyStrip_idem l

theorem fixLoop_piece_strip {L : List (List Char)} {n : Nat} {st : Bool}
    {p : List Char} (hp : p ∈ fixLoop n st L) : pyStrip p = p := by
  rcases fixLoop_mem n st p hp with ⟨l, -, rfl⟩ | ⟨k, rfl⟩
  · exact pyStrip_idem l
  · exact pyStrip_natDigits k

theorem cleanLoop_piece_no_newline {L : List (List Char)} {st : Bool}
    (hL : ∀ l ∈ L, '\n' ∉ l) {p : List Char} (hp : p ∈ cleanLoop st L) :
    '\n' ∉ p := by
  obtain ⟨l, hl, rfl⟩ := cleanLoop_mem st p hp
  exact not_newline_pyStrip (hL l hl)

theorem fixLoop_piece_no_newline {L : List (List Char)} {n : Nat} {st : Bool}
    (hL : ∀ l ∈ L, '\n' ∉ l) {p : List Char} (hp : p ∈ fixLoop n st L) :
    '\n' ∉ p := by
  rcases fixLoop_mem n st p hp with ⟨l, hl, rfl⟩ | ⟨k, rfl⟩
  · exact not_newline_pyStrip (hL l hl)
  · exact newline_not_mem_natDigits k

theorem cleanLoop_head_ne {L : List (List Char)} :
    ∀ p M, cleanLoop false L = p :: M → p ≠ [] := by
  induction L with
  | nil =>
    intro p M h
    simp [cleanLoop] at h
  | cons l rest ih =>
    intro p M h
    refine cleanLoop_step_cases false l rest _ ?_ ?_ ?_ ?_ ?_ ?_
    · intro h1 h2 heq
      rw [heq] at h
      exact ih p M h
    · intro hd hrest heq
      rw [heq] at h
      exact absurd h.symm (List.cons_ne_nil p M)
    · intro l2 rest' hr hd h2 heq
      rw [heq] at h
      exact ih p M h
    · intro l2 rest' hr hd h2 h3 heq
      rw [heq] at h
      obtain ⟨he, -⟩ := List.cons.inj h
      rw [← he]
      exact pyIsDigit_ne_nil hd
    · intro l2 rest' hr hd h2 h3 heq
      rw [heq] at h
      exact ih p M h
    · intro hd hbs heq
      rw [heq] at h
      obtain ⟨he, -⟩ := List.cons.inj h
      rw [← he]
      intro hnil
      exact Bool.noConfusion (hbs hnil)

theorem fixLoop_head_ne {L : List (List Char)} :
    ∀ n p M, fixLoop n false L = p :: M → p ≠ [] := by
  induction L with
  | nil =>
    intro n p M h
    simp [fixLoop] at h
  | cons l rest ih =>
    intro n p M h
    refine fixLoop_step_cases n false l rest _ ?_ ?_ ?_ ?_ ?_
    · intro h1 h2 heq
      rw [heq] at h
      exact ih n p M h
    · intro hd hrest heq
      rw [heq] at h
      exact absurd h.symm (List.cons_ne_nil p M)
    · intro l2 rest' hr hd h3 heq
      rw [heq] at h
      obtain ⟨he, -⟩ := List.cons.inj h
      rw [← he]
      exact natDigits_ne_nil n
    · intro l2 rest' hr hd h3 heq
      rw [heq] at h
      exact ih n p M h
    · intro hd hbs heq
      rw [heq] at h
      obtain ⟨he, -⟩ := List.cons.inj h
      rw [← he]
      intro hnil
      exact Bool.noConfusion (hbs hnil)

theorem cleanLoop_length_le {L : List (List Char)} :
    ∀ st, (cleanLoop st L).length ≤ L.length := by
  induction L with
  | nil => simp [cleanLoop]
  | cons l rest ih =>
    intro st
    refine cleanLoop_step_cases st l rest _ ?_ ?_ ?_ ?_ ?_ ?_
    · intro h1 h2 heq
      rw [heq]
      exact Nat.le_succ_of_le (ih st)
    · intro hd hrest heq
      rw [heq]
      simp
    · intro l2 rest' hr hd h2 heq
      rw [heq]
      exact Nat.le_succ_of_le (ih st)
    · intro l2 rest' hr hd h2 h3 heq
      rw [heq]
      simp only [List.length_cons]
      exact Nat.succ_le_succ (ih true)
    · intro l2 rest' hr hd h2 h3 heq
      rw [heq]
      exact Nat.le_succ_of_le (ih st)
    · intro hd hbs heq
      rw [heq]
      simp only [List.length_cons]
      exact Nat.succ_le_succ (ih true)

/-! ## Cue counting for the renumbering pass -/

theorem cueHere_nil (l : List Char) : cueHere l [] = false := by
  simp [cueHere]

theorem cueHere_cons (l l2 : List Char) (r : List (List Char)) :
    cueHere l (l2 :: r) = (pyIsDigit (pyStrip l) && matchTS (pyStrip l2)) := rfl

theorem countCues_cons (l : List Char) (rest : List (List Char)) :
    countCues (l :: rest) =
      (if cueHere l rest = true then 1 else 0) + countCues rest := rfl

theorem countCues_cons_blank {l : List Char} (rest : List (List Char))
    (h : pyIsDigit (pyStrip l) = false) : countCues (l :: rest) = countCues rest := by
  rw [countCues_cons]
  have : cueHere l rest = false := by simp [cueHere, h]
  rw [this]
  simp

theorem fixLoop_filter_digit {L : List (List Char)} :
    ∀ n st, (fixLoop n st L).filter pyIsDigit =
      (List.range' n (countCues L)).map natDigits := by
  induction L with
  | nil =>
    intro n st
    simp [fixLoop, countCues]
  | cons l rest ih =>
    intro n st
    refine fixLoop_step_cases n st l rest _ ?_ ?_ ?_ ?_ ?_
    · intro h1 h2 heq
      rw [heq, ih n st, countCues_cons_blank rest (by rw [h1]; rfl)]
    · intro hd hrest heq
      subst hrest
      rw [heq]
      simp [countCues_cons, cueHere_nil, countCues]
    · intro l2 rest' hr hd h3 heq
      rw [heq]
      rw [List.filter_cons_of_pos (by rw [pyIsDigit_natDigits])]
      rw [ih (n + 1) true]
      have hc : cueHere l rest = true := by
        rw [hr, cueHere_cons, hd, h3]
        rfl
      rw [countCues_cons, hc]
      simp only [if_true]
      rw [Nat.add_comm 1 (countCues rest), List.range'_succ]
      simp
    · intro l2 rest' hr hd h3 heq
      rw [heq, ih n st, countCues_cons]
      have hc : cueHere l rest = false := by
        rw [hr, cueHere_cons, hd, h3]
        rfl
      rw [hc]
      simp
    · intro hd hbs heq
      rw [heq]
      rw [List.filter_cons_of_neg (by simp [hd])]
      rw [ih n true, countCues_cons_blank rest hd]

theorem countCues_fixLoop {L : List (List Char)} :
    ∀ n st, countCues (fixLoop n st L) = countCues L := by
  induction L with
  | nil =>
    intro n st
    simp [fixLoop]
  | cons l rest ih =>
    intro n st
    refine fixLoop_step_cases n st l rest _ ?_ ?_ ?_ ?_ ?_
    · intro h1 h2 heq
      rw [heq, ih n st, countCues_cons_blank rest (by rw [h1]; rfl)]
    · intro hd hrest heq
      subst hrest
      rw [heq]
      simp [countCues, cueHere_nil]
    · intro l2 rest' hr hd h3 heq
      subst hr
      have hnd2 : pyIsDigit (pyStrip l2) = false := matchTS_not_digit h3
      have hstep := fixLoop_pass (n + 1) true rest' hnd2 (fun _ => rfl)
      have hc2 : cueHere (pyStrip l2) (fixLoop (n + 1) true rest') = false := by
        simp [cueHere, pyStrip_idem, hnd2]
      have key : countCues (fixLoop (n + 1) true rest') = countCues rest' := by
        have h0 := ih (n + 1) true
        rw [hstep, countCues_cons, hc2,
          countCues_cons_blank rest' hnd2] at h0
        simpa using h0
      have hc1 : cueHere (natDigits n)
          (pyStrip l2 :: fixLoop (n + 1) true rest') = true := by
        rw [cueHere_cons, pyStrip_natDigits, pyIsDigit_natDigits, pyStrip_idem, h3]
        rfl
      rw [heq, hstep, countCues_cons, hc1, countCues_cons, hc2, key]
      have hcl : cueHere l (l2 :: rest') = true := by
        rw [cueHere_cons, hd, h3]
        rfl
      rw [countCues_cons, hcl, countCues_cons_blank rest' hnd2]
      simp
    · intro l2 rest' hr hd h3 heq
      subst hr
      have hcl : cueHere l (l2 :: rest') = false := by
        rw [cueHere_cons, hd, h3]
        rfl
      rw [heq, ih n st, countCues_cons l (l2 :: rest'), hcl]
      simp
    · intro hd hbs heq
      rw [heq, countCues_cons]
      have hc : cueHere (pyStrip l) (fixLoop n true rest) = false := by
        simp [cueHere, pyStrip_idem, hd]
      rw [hc, ih n true, countCues_cons_blank rest hd]
      simp

/-! ## Joining, stripping and re-splitting loop output -/

theorem matchTS_nil : matchTS [] = false := rfl

theorem rstrip_append (a b : List Char) :
    rstrip (a ++ b) = if rstrip b = [] then rstrip a else a ++ rstrip b := by
  have hsplit : (a ++ b).reverse.dropWhile pySpace =
      if (b.reverse.dropWhile pySpace).isEmpty = true then
        a.reverse.dropWhile pySpace
      else b.reverse.dropWhile pySpace ++ a.reverse := by
    rw [List.reverse_append, List.dropWhile_append]
  by_cases h : (b.reverse.dropWhile pySpace).isEmpty = true
  · have hb : rstrip b = [] := by
      rw [List.isEmpty_iff] at h
      rw [rstrip, h]
      rfl
    rw [rstrip, hsplit, if_pos h, if_pos hb]
    rfl
  · have hb : rstrip b ≠ [] := by
      intro hx
      apply h
      have := congrArg List.reverse hx
      rw [rstrip, List.reverse_reverse] at this
      rw [List.isEmpty_iff]
      simpa using this
    rw [rstrip, hsplit, if_neg h, if_neg hb]
    rw [List.reverse_append, List.reverse_reverse]
    rfl

theorem rstrip_nl_cons (x : List Char) :
    rstrip ('\n' :: x) = if rstrip x = [] then [] else '\n' :: rstrip x := by
  have h := rstrip_append ['\n'] x
  rw [show (['\n'] : List Char) ++ x = '\n' :: x from rfl] at h
  rw [h]
  by_cases hx : rstrip x = []
  · rw [if_pos hx, if_pos hx]
    rfl
  · rw [if_neg hx, if_neg hx]
    rfl

theorem dropTrailBlank_all_nil {M : List (List Char)} (h : ∀ p ∈ M, p = []) :
    dropTrailBlank M = [] := by
  unfold dropTrailBlank
  have hx : M.reverse.dropWhile List.isEmpty = [] := by
    rw [List.dropWhile_eq_nil_iff]
    intro x hx
    rw [List.mem_reverse] at hx
    simp [h x hx]
  rw [hx]
  rfl

theorem dropTrailBlank_decomp (M : List (List Char)) :
    ∃ B, M = dropTrailBlank M ++ B ∧ ∀ p ∈ B, p = [] := by
  refine ⟨(M.reverse.takeWhile List.isEmpty).reverse, ?_, ?_⟩
  · have h1 := List.takeWhile_append_dropWhile List.isEmpty M.reverse
    have h2 := congrArg List.reverse h1
    rw [List.reverse_append, List.reverse_reverse] at h2
    unfold dropTrailBlank
    exact h2.symm
  · intro p hp
    rw [List.mem_reverse] at hp
    have := List.mem_takeWhile_imp hp
    simpa using this

theorem dropTrailBlank_cons (p : List Char) (tl : List (List Char)) :
    dropTrailBlank (p :: tl) =
      if dropTrailBlank tl = [] then (if p = [] then [] else [p])
      else p :: dropTrailBlank tl := by
  unfold dropTrailBlank
  rw [List.reverse_cons, List.dropWhile_append]
  by_cases h : (tl.reverse.dropWhile List.isEmpty).isEmpty = true
  · rw [if_pos h]
    have hdtb : (tl.reverse.dropWhile List.isEmpty).reverse = [] := by
      rw [List.isEmpty_iff] at h
      rw [h]
      rfl
    rw [if_pos hdtb]
    by_cases hp : p = []
    · subst hp
      rw [if_pos rfl]
      rfl
    · rw [if_neg hp]
      have hpe : List.isEmpty p = false := by
        cases p with
        | nil => exact absurd rfl hp
        | cons c q => rfl
      rw [List.dropWhile_cons, hpe]
      simp
  · rw [if_neg h]
    have hdtb : (tl.reverse.dropWhile List.isEmpty).reverse ≠ [] := by
      intro hx
      apply h
      have := congrArg List.reverse hx
      rw [List.reverse_reverse] at this
      rw [List.isEmpty_iff]
      simpa using this
    rw [if_neg hdtb, List.reverse_append]
    simp

theorem joinNL_dtb_eq_nil {M : List (List Char)}
    (h : joinNL (dropTrailBlank M) = []) : dropTrailBlank M = [] := by
  rcases joinNL_eq_nil h with h1 | h1
  · exact h1
  · exfalso
    have h2 : M.reverse.dropWhile List.isEmpty = [[]] := by
      have := congrArg List.reverse h1
      rw [dropTrailBlank, List.reverse_reverse] at this
      simpa using this
    have hne : M.reverse.dropWhile List.isEmpty ≠ [] := by
      rw [h2]
      simp
    have hh := List.head_dropWhile_not List.isEmpty M.reverse hne
    simp [h2] at hh

theorem countCues_all_blank {B : List (List Char)} (hB : ∀ p ∈ B, p = []) :
    countCues B = 0 := by
  induction B with
  | nil => rfl
  | cons b B' ih =>
    have hb : b = [] := hB b (by simp)
    rw [countCues_cons_blank B' (by rw [hb]; rfl)]
    exact ih (fun p hp => hB p (by simp [hp]))

theorem countCues_append_blank {B : List (List Char)} (hB : ∀ p ∈ B, p = []) :
    ∀ M, countCues (M ++ B) = countCues M := by
  intro M
  induction M with
  | nil => simpa using countCues_all_blank hB
  | cons m M' ih =>
    cases M' with
    | nil =>
      have h1 : cueHere m B = false := by
        cases B with
        | nil => exact cueHere_nil m
        | cons b B'' =>
          have hb : b = [] := hB b (by simp)
          rw [cueHere_cons, hb, pyStrip_nil, matchTS_nil]
          simp
      show countCues (m :: B) = countCues [m]
      rw [countCues_cons m B, h1, countCues_cons m [], cueHere_nil]
      simp [countCues_all_blank hB, countCues]
    | cons m2 M'' =>
      rw [List.cons_append, countCues_cons m ((m2 :: M'') ++ B),
        countCues_cons m (m2 :: M''), ih]
      have he : cueHere m ((m2 :: M'') ++ B) = cueHere m (m2 :: M'') := by
        rw [List.cons_append, cueHere_cons, cueHere_cons]
      rw [he]

theorem lstrip_joinNL {M : List (List Char)}
    (hhead : ∀ p tl, M = p :: tl → p ≠ [] ∧ pyStrip p = p) :
    lstrip (joinNL M) = joinNL M := by
  cases M with
  | nil => rfl
  | cons p tl =>
    obtain ⟨hne, hst⟩ := hhead p tl rfl
    cases p with
    | nil => exact absurd rfl hne
    | cons c p' =>
      have hc : pySpace c = false := pyStrip_head_not_space hst
      cases tl with
      | nil =>
        show List.dropWhile pySpace (c :: p') = c :: p'
        rw [List.dropWhile_cons, hc]
        simp
      | cons q tl' =>
        rw [joinNL_cons (by simp)]
        show List.dropWhile pySpace ((c :: p') ++ _) = _
        rw [List.cons_append, List.dropWhile_cons, hc]
        simp

theorem rstrip_joinNL {M : List (List Char)}
    (hM : ∀ p ∈ M, pyStrip p = p) :
    rstrip (joinNL M) = joinNL (dropTrailBlank M) := by
  induction M with
  | nil => rfl
  | cons p tl ih =>
    cases tl with
    | nil =>
      by_cases hp : p = []
      · subst hp
        rw [dropTrailBlank_all_nil (by simp)]
        rfl
      · rw [dropTrailBlank_cons p [], dropTrailBlank_all_nil (by simp),
          if_pos rfl, if_neg hp]
        exact rstrip_eq_self_of_strip p (hM p (by simp))
    | cons q tl' =>
      have ihh := ih (fun x hx => hM x (by simp [hx]))
      rw [joinNL_cons (by simp), rstrip_append, rstrip_nl_cons, ihh]
      by_cases hj : joinNL (dropTrailBlank (q :: tl')) = []
      · have hdtb : dropTrailBlank (q :: tl') = [] := joinNL_dtb_eq_nil hj
        rw [if_pos hj, if_pos rfl, dropTrailBlank_cons p (q :: tl'), hdtb,
          if_pos rfl]
        by_cases hp : p = []
        · subst hp
          rw [if_pos rfl]
          rfl
        · rw [if_neg hp]
          exact rstrip_eq_self_of_strip p (hM p (by simp))
      · have hdtb : dropTrailBlank (q :: tl') ≠ [] := by
          intro hx
          rw [hx] at hj
          exact hj rfl
        rw [if_neg hj, if_neg (by simp), dropTrailBlank_cons p (q :: tl'),
          if_neg hdtb, joinNL_cons hdtb]

theorem pyStrip_joinNL {M : List (List Char)}
    (hM : ∀ p ∈ M, pyStrip p = p)
    (hhead : ∀ p tl, M = p :: tl → p ≠ []) :
    pyStrip (joinNL M) = joinNL (dropTrailBlank M) := by
  rw [pyStrip,
    lstrip_joinNL (fun p tl h => ⟨hhead p tl h, hM p (by rw [h]; simp)⟩),
    rstrip_joinNL hM]

theorem countCues_lines_of_joinNL {M : List (List Char)}
    (hM : ∀ p ∈ M, pyStrip p = p)
    (hnl : ∀ p ∈ M, '\n' ∉ p)
    (hhead : ∀ p tl, M = p :: tl → p ≠ []) :
    countCues (splitNL (pyStrip (joinNL M))) = countCues M := by
  rw [pyStrip_joinNL hM hhead]
  obtain ⟨B, hMB, hB⟩ := dropTrailBlank_decomp M
  by_cases hd : dropTrailBlank M = []
  · rw [hd]
    have hMB2 : M = B := by
      rw [hd] at hMB
      simpa using hMB
    rw [show countCues (splitNL (joinNL [])) = 0 from rfl, hMB2,
      countCues_all_blank hB]
  · rw [splitNL_joinNL
      (fun p hp => hnl p (by rw [hMB]; exact List.mem_append_left B hp)) hd]
    calc countCues (dropTrailBlank M)
        = countCues (dropTrailBlank M ++ B) :=
          (countCues_append_blank hB (dropTrailBlank M)).symm
      _ = countCues M := by rw [← hMB]

theorem splitNL_fix {t : List Char}
    (h : fixLoop 1 false (splitNL (pyStrip t)) ≠ []) :
    splitNL (fix_srt_numbering t) = fixLoop 1 false (splitNL (pyStrip t)) := by
  rw [fix_srt_numbering]
  exact splitNL_joinNL
    (fun q hq =>
      fixLoop_piece_no_newline (fun l hl => mem_splitNL_no_newline hl) hq) h

theorem splitNL_clean {t : List Char}
    (h : cleanLoop false (splitNL (pyStrip t)) ≠ []) :
    splitNL (clean_srt_content t) = cleanLoop false (splitNL (pyStrip t)) := by
  rw [clean_srt_content]
  exact splitNL_joinNL
    (fun q hq =>
      cleanLoop_piece_no_newline (fun l hl => mem_splitNL_no_newline hl) hq) h

theorem filter_digit_fix (t : List Char) :
    (splitNL (fix_srt_numbering t)).filter pyIsDigit =
      (List.range' 1 (countCues (splitNL (pyStrip t)))).map natDigits := by
  by_cases hM : fixLoop 1 false (splitNL (pyStrip t)) = []
  · have h1 : fix_srt_numbering t = [] := by
      rw [fix_srt_numbering, hM]
      rfl
    have h2 : countCues (splitNL (pyStrip t)) = 0 := by
      have h0 := @countCues_fixLoop (splitNL (pyStrip t)) 1 false
      rw [hM] at h0
      simpa using h0.symm
    rw [h1, h2]
    rfl
  · rw [splitNL_fix hM, fixLoop_filter_digit 1 false]

theorem countCues_lines_fix (s : List Char) :
    countCues (splitNL (pyStrip (fix_srt_numbering s))) =
      countCues (splitNL (pyStrip s)) := by
  rw [fix_srt_numbering]
  rw [countCues_lines_of_joinNL
    (fun p hp => fixLoop_piece_strip hp)
    (fun p hp =>
      fixLoop_piece_no_newline (fun l hl => mem_splitNL_no_newline hl) hp)
    (fun p tl h => fixLoop_head_ne 1 p tl h)]
  exact countCues_fixLoop 1 false

/-! ## Lemmas about duplicate-number cleanup -/

theorem cleanLoop_digit_run {D : List (List Char)} :
    ∀ st (t : List Char) rest (hne : D ≠ []),
      (∀ d ∈ D, pyIsDigit (pyStrip d) = true) →
      matchTS (pyStrip t) = true →
      cleanLoop st (D ++ t :: rest) =
        pyStrip (D.getLast hne) :: cleanLoop true (t :: rest) := by
  induction D with
  | nil =>
    intro st t rest hne
    exact absurd rfl hne
  | cons d D' ih =>
    intro st t rest hne hD ht
    cases D' with
    | nil =>
      simp only [List.cons_append, List.nil_append]
      rw [cleanLoop_cue st rest (hD d (by simp)) ht]
      rfl
    | cons d2 D'' =>
      simp only [List.cons_append]
      rw [cleanLoop_dup st (D'' ++ t :: rest) (hD d (by simp)) (hD d2 (by simp))]
      have hrun := ih st t rest (by simp) (fun x hx => hD x (by simp [hx])) ht
      simp only [List.cons_append] at hrun
      rw [hrun]
      have hgl : (d :: d2 :: D'').getLast hne = (d2 :: D'').getLast (by simp) :=
        List.getLast_cons (by simp)
      rw [hgl]

theorem cleanLoop_trailing_digit {A : List (List Char)} :
    ∀ st (d : List Char), pyIsDigit (pyStrip d) = true →
      cleanLoop st (A ++ [d]) = cleanLoop st A := by
  induction A with
  | nil =>
    intro st d hd
    show cleanLoop st [d] = cleanLoop st []
    rw [cleanLoop_digit_last st hd]
    rfl
  | cons a A' ih =>
    intro st d hd
    cases A' with
    | nil =>
      by_cases hb : pyStrip a = [] ∧ st = false
      · obtain ⟨h1, rfl⟩ := hb
        show cleanLoop false (a :: [d]) = cleanLoop false [a]
        rw [cleanLoop_blank [d] h1, cleanLoop_blank [] h1,
          cleanLoop_digit_last false hd]
        rfl
      · by_cases hdig : pyIsDigit (pyStrip a) = true
        · show cleanLoop st (a :: [d]) = cleanLoop st [a]
          rw [cleanLoop_dup st [] hdig hd, cleanLoop_digit_last st hd,
            cleanLoop_digit_last st hdig]
        · have hdf : pyIsDigit (pyStrip a) = false := by
            cases hx : pyIsDigit (pyStrip a)
            · rfl
            · exact absurd hx hdig
          have hbs : pyStrip a = [] → st = true := by
            intro h1
            cases hst : st
            · exact absurd ⟨h1, hst⟩ hb
            · rfl
          show cleanLoop st (a :: [d]) = cleanLoop st [a]
          rw [cleanLoop_pass st [d] hdf hbs, cleanLoop_pass st [] hdf hbs,
            cleanLoop_digit_last true hd]
          rfl
    | cons a2 A'' =>
      have hshape : (a :: a2 :: A'') ++ [d] = a :: a2 :: (A'' ++ [d]) := by
        simp
      rw [hshape]
      have ihh := ih st d hd
      by_cases hb : pyStrip a = [] ∧ st = false
      · obtain ⟨h1, rfl⟩ := hb
        rw [cleanLoop_blank (a2 :: (A'' ++ [d])) h1,
          cleanLoop_blank (a2 :: A'') h1]
        have := ih false d hd
        simpa using this
      · by_cases hdig : pyIsDigit (pyStrip a) = true
        · by_cases h2 : pyIsDigit (pyStrip a2) = true
          · rw [cleanLoop_dup st (A'' ++ [d]) hdig h2,
              cleanLoop_dup st A'' hdig h2]
            simpa using ih st d hd
          · have h2f : pyIsDigit (pyStrip a2) = false := by
              cases hx : pyIsDigit (pyStrip a2)
              · rfl
              · exact absurd hx h2
            by_cases h3 : matchTS (pyStrip a2) = true
            · rw [cleanLoop_cue st (A'' ++ [d]) hdig h3,
                cleanLoop_cue st A'' hdig h3]
              have := ih true d hd
              simp only [List.cons_append] at this
              rw [this]
            · have h3f : matchTS (pyStrip a2) = false := by
                cases hx : matchTS (pyStrip a2)
                · rfl
                · exact absurd hx h3
              rw [cleanLoop_digit_skip st (A'' ++ [d]) hdig h2f h3f,
                cleanLoop_digit_skip st A'' hdig h2f h3f]
              simpa using ih st d hd
        · have hdf : pyIsDigit (pyStrip a) = false := by
            cases hx : pyIsDigit (pyStrip a)
            · rfl
            · exact absurd hx hdig
          have hbs : pyStrip a = [] → st = true := by
            intro h1
            cases hst : st
            · exact absurd ⟨h1, hst⟩ hb
            · rfl
          rw [cleanLoop_pass st (a2 :: (A'' ++ [d])) hdf hbs,
            cleanLoop_pass st (a2 :: A'') hdf hbs]
          have := ih true d hd
          simp only [List.cons_append] at this
          rw [this]

theorem clean_length_le (s : List Char) :
    (splitNL (clean_srt_content s)).length ≤ (splitNL s).length := by
  have hcount : (splitNL (pyStrip s)).length ≤ (splitNL s).length := by
    rw [length_splitNL, length_splitNL]
    have := (pyStrip_sublist s).count_le '\n'
    omega
  by_cases hM : cleanLoop false (splitNL (pyStrip s)) = []
  · have h1 : clean_srt_content s = [] := by
      rw [clean_srt_content, hM]
      rfl
    rw [h1, splitNL_nil, length_splitNL]
    simp
  · rw [splitNL_clean hM]
    exact (cleanLoop_length_le false).trans hcount

/-! ## Prefix stability of the interval match -/

theorem timeShape_length {t : List Char} (h : timeShape t = true) :
    t.length = 12 := by
  unfold timeShape at h
  split at h
  · rename_i a b c d e f g hh i j k m
    simp
  · exact absurd h (by simp)

theorem parseTime_append {s r v : List Char} (h : parseTime s = some r) :
    parseTime (s ++ v) = some (r ++ v) := by
  unfold parseTime at h ⊢
  split at h
  · rename_i hts
    have hr : r = s.drop 12 := by simpa using h.symm
    have hlen : 12 ≤ s.length := by
      by_contra hlt
      push_neg at hlt
      rw [List.take_of_length_le (le_of_lt hlt)] at hts
      have := timeShape_length hts
      omega
    rw [List.take_append_of_le_length hlen, if_pos hts,
      List.drop_append_of_le_length hlen, hr]
  · exact absurd h (by simp)

theorem parseTime_nil_ne {r : List Char} (h : parseTime [] = some r) : False := by
  simp [parseTime, timeShape] at h

theorem dropWhile_append_of_ne_nil {p : Char → Bool} {a : List Char} {c : Char}
    {t : List Char} (v : List Char) (h : a.dropWhile p = c :: t) :
    (a ++ v).dropWhile p = c :: (t ++ v) := by
  rw [List.dropWhile_append, h]
  simp

theorem parseArrow_append {s r v : List Char} (h : parseArrow s = some r)
    (hr : r ≠ []) : parseArrow (s ++ v) = some (r ++ v) := by
  unfold parseArrow at h ⊢
  split at h
  · rename_i harr
    have hr3 : 3 ≤ (s.dropWhile pySpace).length := by
      have hlen := congrArg List.length harr
      simp only [List.length_take] at hlen
      simp at hlen
      omega
    cases hdw : s.dropWhile pySpace with
    | nil => rw [hdw] at hr3; simp at hr3
    | cons c t =>
      rw [hdw] at h harr hr3
      rw [dropWhile_append_of_ne_nil v hdw]
      have hcv : (c :: (t ++ v)) = (c :: t) ++ v := by simp
      have htake : ((c :: (t ++ v)).take 3) = ['-', '-', '>'] := by
        rw [hcv, List.take_append_of_le_length hr3, harr]
      rw [if_pos htake]
      have hdrop : (c :: (t ++ v)).drop 3 = (c :: t).drop 3 ++ v := by
        rw [hcv, List.drop_append_of_le_length hr3]
      rw [hdrop]
      cases hdw2 : ((c :: t).drop 3).dropWhile pySpace with
      | nil =>
        rw [hdw2] at h
        have : r = [] := by simpa using h.symm
        exact absurd this hr
      | cons c2 t2 =>
        rw [hdw2] at h
        rw [dropWhile_append_of_ne_nil v hdw2]
        have hre : r = c2 :: t2 := by simpa using h.symm
        rw [hre]
        simp
  · exact absurd h (by simp)

theorem matchTS_append {u v : List Char} (h : matchTS u = true) :
    matchTS (u ++ v) = true := by
  rw [matchTS] at h ⊢
  unfold matchTSRest at h ⊢
  cases h1 : parseTime u with
  | none => rw [h1] at h; simp at h
  | some r1 =>
    rw [h1, Option.some_bind] at h
    cases h2 : parseArrow r1 with
    | none => rw [h2] at h; simp at h
    | some r2 =>
      rw [h2, Option.some_bind] at h
      cases h3 : parseTime r2 with
      | none => rw [h3] at h; simp at h
      | some r3 =>
        have hr2ne : r2 ≠ [] := by
          rintro rfl
          exact parseTime_nil_ne h3
        rw [parseTime_append h1, Option.some_bind,
          parseArrow_append h2 hr2ne, Option.some_bind,
          parseTime_append h3]
        simp

/-! ## Well-formed SRT blocks and the renumbering pass -/

theorem fixLoop_texts (n : Nat) :
    ∀ (xs : List (List Char)) (r : List (List Char)),
      (∀ x ∈ xs, pyIsDigit (pyStrip x) = false) →
      fixLoop n true (xs ++ r) = xs.map pyStrip ++ fixLoop n true r := by
  intro xs
  induction xs with
  | nil =>
    intro r h
    simp
  | cons x xs' ih =>
    intro r h
    rw [List.cons_append,
      fixLoop_pass n true (xs' ++ r) (h x (by simp)) (fun _ => rfl),
      ih r (fun y hy => h y (by simp [hy]))]
    simp

theorem goodBlock_destruct {num ts : List Char} {xs : List (List Char)}
    (h : goodBlock (num, ts, xs) = true) :
    pyIsDigit (pyStrip num) = true ∧ matchTS (pyStrip ts) = true ∧
      xs ≠ [] ∧ ∀ x ∈ xs, pyIsDigit (pyStrip x) = false ∧
        matchTS (pyStrip x) = false := by
  simp only [goodBlock, Bool.and_eq_true, Bool.not_eq_true',
    List.all_eq_true] at h
  obtain ⟨⟨⟨h1, h2⟩, h3⟩, h4⟩ := h
  refine ⟨h1, h2, ?_, ?_⟩
  · intro hx
    rw [hx] at h3
    simp at h3
  · intro x hx
    have := h4 x hx
    simpa using this

theorem fixLoop_blocks :
    ∀ (bs : List (List Char × List Char × List (List Char))) (k : Nat)
      (st : Bool), (∀ b ∈ bs, goodBlock b = true) →
      fixLoop k st (flattenBlocks bs) = flattenBlocks (renumber k bs) := by
  intro bs
  induction bs with
  | nil =>
    intro k st h
    rfl
  | cons b bs' ih =>
    intro k st h
    obtain ⟨num, ts, xs⟩ := b
    obtain ⟨h1, h2, h3, h4⟩ := goodBlock_destruct (h (num, ts, xs) (by simp))
    rw [flattenBlocks, fixLoop_cue k st (xs ++ flattenBlocks bs') h1 h2,
      fixLoop_pass (k + 1) true (xs ++ flattenBlocks bs')
        (matchTS_not_digit h2) (fun _ => rfl),
      fixLoop_texts (k + 1) xs (flattenBlocks bs')
        (fun x hx => (h4 x hx).1),
      ih (k + 1) true (fun b hb => h b (by simp [hb]))]
    rw [renumber, flattenBlocks]

theorem flatten_renumber_counts :
    ∀ (bs : List (List Char × List Char × List (List Char))) (k : Nat),
      (∀ b ∈ bs, goodBlock b = true) →
      ((flattenBlocks (renumber k bs)).filter pyIsDigit).length = bs.length ∧
        ((flattenBlocks (renumber k bs)).filter matchTS).length = bs.length := by
  intro bs
  induction bs with
  | nil =>
    intro k h
    simp [renumber, flattenBlocks]
  | cons b bs' ih =>
    intro k h
    obtain ⟨num, ts, xs⟩ := b
    obtain ⟨h1, h2, h3, h4⟩ := goodBlock_destruct (h (num, ts, xs) (by simp))
    obtain ⟨ih1, ih2⟩ := ih (k + 1) (fun b hb => h b (by simp [hb]))
    rw [renumber, flattenBlocks]
    have hxsD : (xs.map pyStrip).filter pyIsDigit = [] := by
      rw [List.filter_eq_nil_iff]
      intro x hx
      rw [List.mem_map] at hx
      obtain ⟨y, hy, rfl⟩ := hx
      simp [pyStrip_idem, (h4 y hy).1]
    have hxsT : (xs.map pyStrip).filter matchTS = [] := by
      rw [List.filter_eq_nil_iff]
      intro x hx
      rw [List.mem_map] at hx
      obtain ⟨y, hy, rfl⟩ := hx
      simp [pyStrip_idem, (h4 y hy).2]
    constructor
    · rw [List.filter_cons_of_pos (by rw [pyIsDigit_natDigits]),
        List.filter_cons_of_neg
          (by simp [pyStrip_idem, matchTS_not_digit h2]),
        List.filter_append, hxsD]
      simp [ih1]
    · rw [List.filter_cons_of_neg (by simp [matchTS_natDigits]),
        List.filter_cons_of_pos (by simp [pyStrip_idem, h2]),
        List.filter_append, hxsT]
      simp [ih2]

/-! ## First-occurrence replacement in timestamp restoration -/

theorem noEarly_spec {p A B : List Char} (h : noEarly p A B = true) :
    ∀ k, k < A.length → p.isPrefixOf ((A ++ p ++ B).drop k) = false := by
  intro k hk
  rw [noEarly, List.all_eq_true] at h
  have := h k (List.mem_range.2 hk)
  simpa using this

theorem replaceFirst_at {p : List Char} (q : List Char) :
    ∀ (A B : List Char), p ≠ [] →
      (∀ k, k < A.length → p.isPrefixOf ((A ++ p ++ B).drop k) = false) →
      replaceFirst p q (A ++ p ++ B) = A ++ q ++ B := by
  intro A
  induction A with
  | nil =>
    intro B hp h
    cases p with
    | nil => exact absurd rfl hp
    | cons c p' =>
      simp only [List.nil_append]
      rw [List.cons_append, replaceFirst]
      have hpre : (c :: p').isPrefixOf (c :: (p' ++ B)) = true := by
        rw [show c :: (p' ++ B) = (c :: p') ++ B from rfl]
        exact List.isPrefixOf_iff_prefix.2 (List.prefix_append _ _)
      rw [if_pos hpre, show c :: (p' ++ B) = (c :: p') ++ B from rfl,
        List.drop_left]
  | cons a A' ih =>
    intro B hp h
    have h0 := h 0 (by simp)
    simp only [List.drop_zero] at h0
    have hsh : ((a :: A') ++ p ++ B) = a :: (A' ++ p ++ B) := by simp
    rw [hsh] at h0
    rw [hsh, replaceFirst, if_neg (by rw [h0]; simp)]
    have h' : ∀ k, k < A'.length →
        p.isPrefixOf ((A' ++ p ++ B).drop k) = false := by
      intro k hk
      have := h (k + 1) (by simp; omega)
      rw [hsh] at this
      simpa using this
    rw [ih B hp h']
    simp

theorem foldl_replaceFirst_build :
    ∀ (cues : List (List Char × List Char × List Char)) (A t : List Char),
      (∀ c ∈ cues, c.1 ≠ []) → goodCues (A ++ t) cues = true →
      (cues.map fun c => (c.2.1, c.1)).foldl
        (fun acc pr => replaceFirst pr.2 pr.1 acc) (A ++ buildP t cues) =
        A ++ buildS t cues := by
  intro cues
  induction cues with
  | nil =>
    intro A t hne hg
    rfl
  | cons c rest ih =>
    intro A t hne hg
    obtain ⟨p, s, t'⟩ := c
    simp only [goodCues, Bool.and_eq_true] at hg
    obtain ⟨hg1, hg2⟩ := hg
    rw [buildP, List.map_cons, List.foldl_cons]
    have hshape : A ++ (t ++ p ++ buildP t' rest) =
        (A ++ t) ++ p ++ buildP t' rest := by simp
    rw [hshape,
      replaceFirst_at s (A ++ t) (buildP t' rest)
        (hne (p, s, t') (by simp)) (noEarly_spec hg1)]
    have hshape2 : (A ++ t) ++ s ++ buildP t' rest =
        (A ++ t ++ s) ++ buildP t' rest := by simp
    have hg2' : goodCues ((A ++ t ++ s) ++ t') rest = true := by
      have e : (A ++ t ++ s) ++ t' = (A ++ t) ++ s ++ t' := by simp
      rw [e]
      exact hg2
    rw [hshape2, ih (A ++ t ++ s) t' (fun x hx => hne x (by simp [hx])) hg2']
    rw [buildS]
    simp

/-! ## Head and tail characters of the joined output -/

theorem joinNL_head_of_cons {p : List Char} {tl : List (List Char)}
    (hp : p ≠ []) : (joinNL (p :: tl)).head? = p.head? := by
  cases tl with
  | nil => rfl
  | cons q tl' =>
    rw [joinNL_cons (by simp)]
    cases p with
    | nil => exact absurd rfl hp
    | cons c p' => rfl

theorem joinNL_getLast_space {M : List (List Char)}
    (hM : ∀ p ∈ M, pyStrip p = p) :
    ∀ c, (joinNL M).getLast? = some c → pySpace c = true → c = '\n' := by
  induction M with
  | nil =>
    intro c h
    simp [joinNL] at h
  | cons p tl ih =>
    intro c h hsp
    cases tl with
    | nil =>
      have hst : pyStrip p = p := hM p (by simp)
      have hns : pySpace c = false := pyStrip_last_not_space (by rw [hst]; exact h)
      rw [hns] at hsp
      exact Bool.noConfusion hsp
    | cons q tl' =>
      rw [joinNL_cons (by simp)] at h
      cases hJ : joinNL (q :: tl') with
      | nil =>
        rw [hJ] at h
        rw [show p ++ '\n' :: ([] : List Char) = p ++ ['\n'] from rfl,
          List.getLast?_concat] at h
        exact (Option.some_inj.1 h).symm
      | cons d x =>
        rw [hJ, List.getLast?_append, List.getLast?_cons_cons] at h
        cases hgx : (d :: x).getLast? with
        | none =>
          rw [List.getLast?_eq_none_iff] at hgx
          exact absurd hgx (by simp)
        | some y =>
          rw [hgx] at h
          simp only [Option.or_some] at h
          refine ih (fun x hx => hM x (by simp [hx])) c ?_ hsp
          rw [hJ, hgx, ← h]

theorem clean_head_not_space {s : List Char} {c : Char}
    (h : (clean_srt_content s).head? = some c) : pySpace c = false := by
  rw [clean_srt_content] at h
  cases hM : cleanLoop false (splitNL (pyStrip s)) with
  | nil =>
    rw [hM] at h
    simp [joinNL] at h
  | cons p tl =>
    have hpne : p ≠ [] := cleanLoop_head_ne p tl hM
    rw [hM, joinNL_head_of_cons hpne] at h
    have hst : pyStrip p = p := cleanLoop_piece_strip (by rw [hM]; simp)
    cases p with
    | nil => exact absurd rfl hpne
    | cons c0 p' =>
      have hc0 : c0 = c := by simpa using h
      subst hc0
      exact pyStrip_head_not_space hst

theorem fix_head_not_space {s : List Char} {c : Char}
    (h : (fix_srt_numbering s).head? = some c) : pySpace c = false := by
  rw [fix_srt_numbering] at h
  cases hM : fixLoop 1 false (splitNL (pyStrip s)) with
  | nil =>
    rw [hM] at h
    simp [joinNL] at h
  | cons p tl =>
    have hpne : p ≠ [] := fixLoop_head_ne 1 p tl hM
    rw [hM, joinNL_head_of_cons hpne] at h
    have hst : pyStrip p = p := fixLoop_piece_strip (by rw [hM]; simp)
    cases p with
    | nil => exact absurd rfl hpne
    | cons c0 p' =>
      have hc0 : c0 = c := by simpa using h
      subst hc0
      exact pyStrip_head_not_space hst

theorem clean_lines_stripped {s l : List Char}
    (h : l ∈ splitNL (clean_srt_content s)) : pyStrip l = l := by
  by_cases hM : cleanLoop false (splitNL (pyStrip s)) = []
  · have h1 : clean_srt_content s = [] := by
      rw [clean_srt_content, hM]
      rfl
    rw [h1, splitNL_nil] at h
    simp at h
    rw [h]
    rfl
  · rw [splitNL_clean hM] at h
    exact cleanLoop_piece_strip h

theorem fix_lines_stripped {s l : List Char}
    (h : l ∈ splitNL (fix_srt_numbering s)) : pyStrip l = l := by
  by_cases hM : fixLoop 1 false (splitNL (pyStrip s)) = []
  · have h1 : fix_srt_numbering s = [] := by
      rw [fix_srt_numbering, hM]
      rfl
    rw [h1, splitNL_nil] at h
    simp at h
    rw [h]
    rfl
  · rw [splitNL_fix hM] at h
    exact fixLoop_piece_strip h

theorem clean_last_space_newline {s : List Char} {c : Char}
    (h : (clean_srt_content s).getLast? = some c) (hsp : pySpace c = true) :
    c = '\n' := by
  rw [clean_srt_content] at h
  exact joinNL_getLast_space (fun p hp => cleanLoop_piece_strip hp) c h hsp

theorem fix_last_space_newline {s : List Char} {c : Char}
    (h : (fix_srt_numbering s).getLast? = some c) (hsp : pySpace c = true) :
    c = '\n' := by
  rw [fix_srt_numbering] at h
  exact joinNL_getLast_space (fun p hp => fixLoop_piece_strip hp) c h hsp

/-! ## The claims -/

/-- C3: whenever timestamp restoration cannot proceed — the original file is
missing or unreadable (`sourceRead = none`, the exception handler), the
original contains no time intervals, or the two extracted interval lists
have different lengths — `replace_timestamps_with_originals` returns the
processed content exactly unchanged, with no escaping exception. -/
theorem C3_theorem (processed : List Char) (r : Option (List Char))
    (h : r = none ∨ ∃ src, r = some src ∧ (extractTS src = [] ∨
      (extractTS src).length ≠ (extractTS processed).length)) :
    replace_timestamps_with_originals processed r = processed := by
  rcases h with rfl | ⟨src, rfl, h2⟩
  · rfl
  · simp only [replace_timestamps_with_originals]
    rcases h2 with h2 | h2
    · rw [if_pos (by simp [h2])]
    · by_cases he : extractTS src = []
      · rw [if_pos (by simp [he])]
      · rw [if_neg (by simpa using he), if_pos h2]

/-- Witness for C3 at a concrete input: a source file with no interval makes
restoration a no-op. -/
theorem C3_witness :
    replace_timestamps_with_originals
      ("1\n00:00:01,000 --> 00:00:02,000\nhello".toList)
      (some ("no intervals in here".toList)) =
      "1\n00:00:01,000 --> 00:00:02,000\nhello".toList :=
  C3_theorem ("1\n00:00:01,000 --> 00:00:02,000\nhello".toList)
    (some ("no intervals in here".toList))
    (Or.inr ⟨"no intervals in here".toList, rfl, Or.inl (by decide)⟩)

/-- C5: `fix_srt_numbering` is idempotent with respect to numbering: the
numeric lines of `fix_srt_numbering (fix_srt_numbering s)` are exactly the
numeric lines of `fix_srt_numbering s`. -/
theorem C5_theorem (s : List Char) :
    (splitNL (fix_srt_numbering (fix_srt_numbering s))).filter pyIsDigit =
      (splitNL (fix_srt_numbering s)).filter pyIsDigit := by
  rw [filter_digit_fix (fix_srt_numbering s), filter_digit_fix s,
    countCues_lines_fix s]

/-- C7 (amended): in both repair passes every non-numeric line passes
through to the output with its surrounding whitespace stripped — not
character for character — including blank lines after the first retained
line; leading blank lines are dropped. -/
theorem C7_theorem :
    (∀ (st : Bool) (l : List Char) rest, pyIsDigit (pyStrip l) = false →
      (pyStrip l = [] → st = true) →
      cleanLoop st (l :: rest) = pyStrip l :: cleanLoop true rest) ∧
    (∀ (n : Nat) (st : Bool) (l : List Char) rest,
      pyIsDigit (pyStrip l) = false → (pyStrip l = [] → st = true) →
      fixLoop n st (l :: rest) = pyStrip l :: fixLoop n true rest) ∧
    (∀ (l : List Char) rest, pyStrip l = [] →
      cleanLoop false (l :: rest) = cleanLoop false rest) ∧
    (∀ (n : Nat) (l : List Char) rest, pyStrip l = [] →
      fixLoop n false (l :: rest) = fixLoop n false rest) :=
  ⟨fun st l rest hd hb => cleanLoop_pass st rest hd hb,
   fun n st l rest hd hb => fixLoop_pass n st rest hd hb,
   fun l rest hb => cleanLoop_blank rest hb,
   fun n l rest hb => fixLoop_blank n rest hb⟩

/-- Witness for C7 at concrete lines: a text line is emitted stripped, an
interior blank line survives, a leading blank line is dropped. -/
theorem C7_witness :
    cleanLoop true (" some text ".toList :: [[]]) =
      pyStrip (" some text ".toList) :: cleanLoop true [[]] ∧
    fixLoop 3 false (" other ".toList :: []) =
      pyStrip (" other ".toList) :: fixLoop 3 true [] ∧
    cleanLoop false ("  ".toList :: ["a".toList]) =
      cleanLoop false ["a".toList] ∧
    fixLoop 1 false ([] :: ["a".toList]) = fixLoop 1 false ["a".toList] :=
  ⟨C7_theorem.1 true (" some text ".toList) [[]] (by decide) (by decide),
   C7_theorem.2.1 3 false (" other ".toList) [] (by decide) (by decide),
   C7_theorem.2.2.1 ("  ".toList) ["a".toList] (by decide),
   C7_theorem.2.2.2 1 [] ["a".toList] (by decide)⟩

/-- C7 counterexample to the claim as stated: on an input whose lines are
all non-numeric and none of which is a leading blank, the claim demands the
output equal the input character for character, but the line with trailing
whitespace comes out stripped. -/
theorem C7_counterexample :
    clean_srt_content ("a \nb".toList) = "a\nb".toList ∧
    "a\nb".toList ≠ "a \nb".toList :=
  ⟨by decide, by decide⟩

/-- C9: a numeric line is confirmed as a cue number whenever the stripped
next line merely begins with the interval pattern — `matchTS` is stable
under appending arbitrary trailing characters — and the identical predicate
drives both `clean_srt_content` (which then retains the line) and
`fix_srt_numbering` (which then emits the counter). -/
theorem C9_theorem :
    (∀ u v : List Char, matchTS u = true → matchTS (u ++ v) = true) ∧
    (∀ (st : Bool) (l t : List Char) rest, pyIsDigit (pyStrip l) = true →
      matchTS (pyStrip t) = true →
      cleanLoop st (l :: t :: rest) = pyStrip l :: cleanLoop true (t :: rest)) ∧
    (∀ (n : Nat) (st : Bool) (l t : List Char) rest,
      pyIsDigit (pyStrip l) = true → matchTS (pyStrip t) = true →
      fixLoop n st (l :: t :: rest) =
        natDigits n :: fixLoop (n + 1) true (t :: rest)) :=
  ⟨fun u v h => matchTS_append h,
   fun st l t rest hd hm => cleanLoop_cue st rest hd hm,
   fun n st l t rest hd hm => fixLoop_cue n st rest hd hm⟩

/-- Witness for C9: an interval line with trailing junk still confirms the
preceding numeric line in both passes. -/
theorem C9_witness :
    matchTS ("00:00:01,000 --> 00:00:02,000".toList ++ "junk".toList) = true ∧
    cleanLoop false
        ("7".toList :: "00:00:01,000 --> 00:00:02,000junk".toList :: []) =
      pyStrip ("7".toList) ::
        cleanLoop true ("00:00:01,000 --> 00:00:02,000junk".toList :: []) ∧
    fixLoop 1 false
        ("7".toList :: "00:00:01,000 --> 00:00:02,000junk".toList :: []) =
      natDigits 1 ::
        fixLoop 2 true ("00:00:01,000 --> 00:00:02,000junk".toList :: []) :=
  ⟨C9_theorem.1 ("00:00:01,000 --> 00:00:02,000".toList) ("junk".toList)
      (by decide),
   C9_theorem.2.1 false ("7".toList)
      ("00:00:01,000 --> 00:00:02,000junk".toList) [] (by decide) (by decide),
   C9_theorem.2.2 1 false ("7".toList)
      ("00:00:01,000 --> 00:00:02,000junk".toList) [] (by decide) (by decide)⟩

/-- C10 (amended): the outputs of both passes never begin with whitespace,
every output line carries no surrounding whitespace, and the only whitespace
character either output can end with is a newline left behind by a retained
blank line whose following content was dropped. -/
theorem C10_theorem :
    (∀ (s : List Char) (c : Char),
      (clean_srt_content s).head? = some c → pySpace c = false) ∧
    (∀ (s : List Char) (c : Char),
      (fix_srt_numbering s).head? = some c → pySpace c = false) ∧
    (∀ s l : List Char, l ∈ splitNL (clean_srt_content s) → pyStrip l = l) ∧
    (∀ s l : List Char, l ∈ splitNL (fix_srt_numbering s) → pyStrip l = l) ∧
    (∀ (s : List Char) (c : Char), (clean_srt_content s).getLast? = some c →
      pySpace c = true → c = '\n') ∧
    (∀ (s : List Char) (c : Char), (fix_srt_numbering s).getLast? = some c →
      pySpace c = true → c = '\n') :=
  ⟨fun s c h => clean_head_not_space h,
   fun s c h => fix_head_not_space h,
   fun s l h => clean_lines_stripped h,
   fun s l h => fix_lines_stripped h,
   fun s c h hsp => clean_last_space_newline h hsp,
   fun s c h hsp => fix_last_space_newline h hsp⟩

/-- Witness for C10 at a concrete input whose output ends in a newline. -/
theorem C10_witness :
    pySpace 'a' = false ∧ pyStrip ("a".toList) = "a".toList ∧ '\n' = '\n' :=
  ⟨C10_theorem.1 ("a\n\n5".toList) 'a' (by decide),
   C10_theorem.2.2.1 ("a\n\n5".toList) ("a".toList) (by decide),
   C10_theorem.2.2.2.2.1 ("a\n\n5".toList) '\n' (by decide) (by decide)⟩

/-- C10 counterexample to the claim as stated: dropping a trailing numeric
line after an interior blank line leaves a trailing newline, so the output
of `clean_srt_content` can end with whitespace. -/
theorem C10_counterexample :
    clean_srt_content ("a\n\n5".toList) = "a\n".toList ∧
    (("a\n".toList : List Char).getLast? = some '\n') ∧ pySpace '\n' = true :=
  ⟨by decide, by decide, by decide⟩

/-- C4: in `clean_srt_content`, (a) a run of consecutive numeric lines
immediately followed by an interval line is collapsed to its last numeric
line, retained immediately before that interval; (b) a numeric line at the
very end of the input is dropped; (c) the output never has more lines than
the input. -/
theorem C4_theorem :
    (∀ (st : Bool) (D : List (List Char)) (t : List Char) rest (hne : D ≠ []),
      (∀ d ∈ D, pyIsDigit (pyStrip d) = true) → matchTS (pyStrip t) = true →
      cleanLoop st (D ++ t :: rest) =
        pyStrip (D.getLast hne) :: cleanLoop true (t :: rest)) ∧
    (∀ (st : Bool) (A : List (List Char)) (d : List Char),
      pyIsDigit (pyStrip d) = true →
      cleanLoop st (A ++ [d]) = cleanLoop st A) ∧
    (∀ s : List Char,
      (splitNL (clean_srt_content s)).length ≤ (splitNL s).length) :=
  ⟨fun st D t rest hne hD ht => cleanLoop_digit_run st t rest hne hD ht,
   fun st A d hd => cleanLoop_trailing_digit st d hd,
   clean_length_le⟩

/-- Witness for C4: the run `2, 3` before an interval keeps only `3`; a
trailing `7` is dropped; a concrete document does not grow. -/
theorem C4_witness :
    cleanLoop false
        (["2".toList, "3".toList] ++
          "00:00:01,000 --> 00:00:02,000".toList :: []) =
      pyStrip (["2".toList, "3".toList].getLast (by simp)) ::
        cleanLoop true ("00:00:01,000 --> 00:00:02,000".toList :: []) ∧
    cleanLoop true (["hello".toList] ++ ["7".toList]) =
      cleanLoop true ["hello".toList] ∧
    (splitNL (clean_srt_content
        ("1\n2\n00:00:01,000 --> 00:00:02,000\nhi".toList))).length ≤
      (splitNL ("1\n2\n00:00:01,000 --> 00:00:02,000\nhi".toList)).length :=
  ⟨C4_theorem.1 false ["2".toList, "3".toList]
      ("00:00:01,000 --> 00:00:02,000".toList) [] (by simp) (by decide)
      (by decide),
   C4_theorem.2.1 true ["hello".toList] ("7".toList) (by decide),
   C4_theorem.2.2 ("1\n2\n00:00:01,000 --> 00:00:02,000\nhi".toList)⟩

/-- C2: (i) for every input the numeric lines of the renumbered output are
exactly the contiguous decimal sequence 1..K, in order; (ii) on a
well-formed input — a sequence of blocks (number, interval, text lines) —
the output is exactly the renumbered block sequence (numbers and intervals
strictly alternating with the text blocks between them), and the output has
as many numeric lines as interval lines. -/
theorem C2_theorem :
    (∀ s : List Char, ∃ K : Nat,
      (splitNL (fix_srt_numbering s)).filter pyIsDigit =
        (List.range' 1 K).map natDigits) ∧
    (∀ (s : List Char) (bs : List (List Char × List Char × List (List Char))),
      splitNL (pyStrip s) = flattenBlocks bs →
      (∀ b ∈ bs, goodBlock b = true) →
      splitNL (fix_srt_numbering s) = flattenBlocks (renumber 1 bs) ∧
      ((flattenBlocks (renumber 1 bs)).filter pyIsDigit).length =
        ((flattenBlocks (renumber 1 bs)).filter matchTS).length) := by
  constructor
  · intro s
    exact ⟨countCues (splitNL (pyStrip s)), filter_digit_fix s⟩
  · intro s bs hlines hgood
    cases bs with
    | nil =>
      exfalso
      simp [flattenBlocks] at hlines
      exact splitNL_ne_nil _ hlines
    | cons b bs' =>
      have hfl : fixLoop 1 false (splitNL (pyStrip s)) =
          flattenBlocks (renumber 1 (b :: bs')) := by
        rw [hlines]
        exact fixLoop_blocks (b :: bs') 1 false hgood
      constructor
      · have hne : fixLoop 1 false (splitNL (pyStrip s)) ≠ [] := by
          rw [hfl]
          obtain ⟨num, ts, xs⟩ := b
          rw [renumber, flattenBlocks]
          simp
        rw [splitNL_fix hne, hfl]
      · obtain ⟨c1, c2⟩ := flatten_renumber_counts (b :: bs') 1 hgood
        rw [c1, c2]

/-- Witness for C2 at a concrete well-formed document of one block. -/
theorem C2_witness :
    splitNL (fix_srt_numbering
        ("5\n00:00:01,000 --> 00:00:02,000\nhello".toList)) =
      flattenBlocks (renumber 1
        [("5".toList, "00:00:01,000 --> 00:00:02,000".toList,
          ["hello".toList])]) ∧
    ((flattenBlocks (renumber 1
        [("5".toList, "00:00:01,000 --> 00:00:02,000".toList,
          ["hello".toList])])).filter pyIsDigit).length =
      ((flattenBlocks (renumber 1
        [("5".toList, "00:00:01,000 --> 00:00:02,000".toList,
          ["hello".toList])])).filter matchTS).length :=
  C2_theorem.2 ("5\n00:00:01,000 --> 00:00:02,000\nhello".toList)
    [("5".toList, "00:00:01,000 --> 00:00:02,000".toList, ["hello".toList])]
    (by decide) (by decide)

theorem pathStem_srt {stem : List Char} (h : stem ≠ []) :
    pathStem (stem ++ srtExt) = stem := by
  unfold pathStem
  have h1 : (stem ++ srtExt).reverse = 't' :: 'r' :: 's' :: '.' :: stem.reverse := by
    rw [List.reverse_append]
    rfl
  rw [h1]
  have h2 : (('t' : Char) :: 'r' :: 's' :: '.' :: stem.reverse).dropWhile
      (fun c => c != '.') = '.' :: stem.reverse := by
    rw [List.dropWhile_cons]
    rw [if_pos (by decide)]
    rw [List.dropWhile_cons, if_pos (by decide)]
    rw [List.dropWhile_cons, if_pos (by decide)]
    rw [List.dropWhile_cons, if_neg (by decide)]
  rw [h2]
  have h3 : stem.reverse.isEmpty = false := by
    cases hs : stem.reverse with
    | nil =>
      exfalso
      apply h
      simpa using congrArg List.reverse hs
    | cons c t => rfl
  simp [h3]

/-- C8 (amended): `find_source_file` takes the parent directory name as the
collection, removes every occurrence of the telugu marker (not only a
trailing suffix) from the stem, and looks up the `.srt` file under
`parents[2]` next to the collection directory. -/
theorem C8_theorem (base : List (List Char)) (series stem : List Char)
    (hstem : stem ≠ []) :
    find_source_file (base ++ [series, stem ++ srtExt]) =
      base.dropLast ++ [series, pyReplaceAll teluguChars [] stem ++ srtExt] := by
  have hsh : base ++ [series, stem ++ srtExt] =
      (base ++ [series]) ++ [stem ++ srtExt] := by simp
  have h1 : (base ++ [series, stem ++ srtExt]).dropLast = base ++ [series] := by
    rw [hsh, List.dropLast_concat]
  have h2 : (base ++ [series, stem ++ srtExt]).getLastD [] = stem ++ srtExt := by
    rw [hsh, List.getLastD_concat]
  have h3 : (base ++ [series]).getLastD ([] : List Char) = series :=
    List.getLastD_concat _ _ _
  have h4 : (base ++ [series]).dropLast = base := List.dropLast_concat
  simp only [find_source_file]
  rw [h1, h2, h3, h4, pathStem_srt hstem]

/-- Witness for C8 at a concrete path. -/
theorem C8_witness :
    find_source_file (["root".toList, "processed".toList] ++
        ["Show".toList, "ep_telugu_1".toList ++ srtExt]) =
      (["root".toList, "processed".toList] : List (List Char)).dropLast ++
        ["Show".toList,
          pyReplaceAll teluguChars [] ("ep_telugu_1".toList) ++ srtExt] :=
  C8_theorem ["root".toList, "processed".toList] ("Show".toList)
    ("ep_telugu_1".toList) (by decide)

/-- C8 counterexample to the claim as stated: with the marker occurring
twice in the stem (once not trailing), the code removes both occurrences,
while stripping only the trailing suffix would leave
`ep_telugu_01.srt`. -/
theorem C8_counterexample :
    find_source_file
        ["base".toList, "processed".toList, "Show".toList,
          "ep_telugu_01_telugu.srt".toList] =
      ["base".toList, "Show".toList, "ep_01.srt".toList] ∧
    ["base".toList, "Show".toList, "ep_01.srt".toList] ≠
      ["base".toList, "Show".toList, "ep_telugu_01.srt".toList] :=
  ⟨by decide, by decide⟩

/-- C6 (code bug): evaluated on a response whose first cue is already
numbered 1, the sanitiser of `save_single_transliterated_file` still inserts
a spurious `1` line before cue 2, because `subtitle_found` is set only
inside the insertion branch. -/
theorem C6_theorem :
    save_single_transliterated_file ("Show".toList)
        (("1\n00:00:01,000 --> 00:00:02,000\nhello\n" ++
          "2\n00:00:03,000 --> 00:00:04,000\nworld").toList) =
      ("1\n00:00:01,000 --> 00:00:02,000\nhello\n" ++
        "1\n2\n00:00:03,000 --> 00:00:04,000\nworld").toList := by
  decide

/-- C1 (amended): each replacement rewrites the first occurrence — counted
from the start of the partially replaced text — of the i-th processed
interval, not the first not-yet-replaced occurrence.  When no occurrence of
a processed interval starts earlier in the partially replaced text than its
own position (`goodCues`, e.g. when the intervals are pairwise distinct and
the substituted originals introduce no earlier copies), the result is the
processed text with the i-th interval replaced by the i-th original and all
surrounding text unchanged. -/
theorem C1_theorem (t0 : List Char)
    (cues : List (List Char × List Char × List Char)) (S : List Char)
    (hne : ∀ c ∈ cues, c.1 ≠ [])
    (hS : extractTS S = cues.map fun c => c.2.1)
    (hP : extractTS (buildP t0 cues) = cues.map fun c => c.1)
    (hgood : goodCues t0 cues = true) :
    replace_timestamps_with_originals (buildP t0 cues) (some S) =
      buildS t0 cues := by
  simp only [replace_timestamps_with_originals]
  rw [hS, hP]
  cases cues with
  | nil =>
    rw [if_pos (by simp)]
    rfl
  | cons c rest =>
    rw [if_neg (by simp), if_neg (by simp), List.zip_map']
    have h := foldl_replaceFirst_build (c :: rest) [] t0 hne
      (by simpa using hgood)
    simpa using h

/-- Witness for C1 at a concrete two-cue document with distinct intervals:
restoration replaces both intervals positionally. -/
theorem C1_witness :
    replace_timestamps_with_originals
      (buildP ("1\n".toList)
        [("00:00:01,000 --> 00:00:02,000".toList,
          "00:00:05,000 --> 00:00:06,000".toList, "\na\n2\n".toList),
         ("00:00:03,000 --> 00:00:04,000".toList,
          "00:00:07,000 --> 00:00:08,000".toList, "\nb".toList)])
      (some (("1\n00:00:05,000 --> 00:00:06,000\nc\n" ++
        "2\n00:00:07,000 --> 00:00:08,000\nd").toList)) =
      buildS ("1\n".toList)
        [("00:00:01,000 --> 00:00:02,000".toList,
          "00:00:05,000 --> 00:00:06,000".toList, "\na\n2\n".toList),
         ("00:00:03,000 --> 00:00:04,000".toList,
          "00:00:07,000 --> 00:00:08,000".toList, "\nb".toList)] :=
  C1_theorem ("1\n".toList)
    [("00:00:01,000 --> 00:00:02,000".toList,
      "00:00:05,000 --> 00:00:06,000".toList, "\na\n2\n".toList),
     ("00:00:03,000 --> 00:00:04,000".toList,
      "00:00:07,000 --> 00:00:08,000".toList, "\nb".toList)]
    (("1\n00:00:05,000 --> 00:00:06,000\nc\n" ++
      "2\n00:00:07,000 --> 00:00:08,000\nd").toList)
    (by decide) (by decide) (by decide) (by decide)

/-- C1 counterexample to the claim as stated: the processed document repeats
one interval, the interval lists have equal length 2, yet the code rewrites
the FIRST copy of the repeated interval when processing position 1, so the
output is not the positional replacement the claim describes. -/
theorem C1_counterexample :
    (extractTS (("1\n00:00:01,000 --> 00:00:02,000\nx\n" ++
        "2\n00:00:05,000 --> 00:00:06,000\ny").toList)).length =
      (extractTS (("1\n00:00:01,000 --> 00:00:02,000\nfoo\n" ++
        "2\n00:00:01,000 --> 00:00:02,000\nbar").toList)).length ∧
    replace_timestamps_with_originals
        (("1\n00:00:01,000 --> 00:00:02,000\nfoo\n" ++
          "2\n00:00:01,000 --> 00:00:02,000\nbar").toList)
        (some (("1\n00:00:01,000 --> 00:00:02,000\nx\n" ++
          "2\n00:00:05,000 --> 00:00:06,000\ny").toList)) =
      ("1\n00:00:05,000 --> 00:00:06,000\nfoo\n" ++
        "2\n00:00:01,000 --> 00:00:02,000\nbar").toList ∧
    ("1\n00:00:05,000 --> 00:00:06,000\nfoo\n" ++
        "2\n00:00:01,000 --> 00:00:02,000\nbar").toList ≠
      ("1\n00:00:01,000 --> 00:00:02,000\nfoo\n" ++
        "2\n00:00:05,000 --> 00:00:06,000\nbar").toList :=
  ⟨by decide, by decide, by decide⟩
